import Mathlib

/-!
# Library management system (`src/Main.cpp`)

A shallow embedding of the C++ program and the properties of its catalog,
roster and borrow/return operations.

Modelling conventions.

* `vector<unique_ptr<Book>>` and `vector<unique_ptr<Member>>` are lists; a raw
  pointer into one of them (`Book*`, `Member*`) is the position of the pointee,
  and a null pointer is `none`.  The pointees are heap objects owned by the
  vectors, so a position stays valid while the vectors only grow.
* A `Book&` / member function pair that mutates both objects is a function
  that returns both new values; the caller writes them back at their positions.
* `int` values are `Int`.  Book ids are whatever the caller supplies; member
  ids are `members.size() + 1`, exact for rosters below `2^31` entries, which
  is the range modelled.
* Console output is not part of the state and is left out.
-/

namespace Library

/-! ## Books -/

/-- The two concrete subclasses of `Book`. -/
inductive BookKind where
  | EBook
  | PrintedBook
  deriving DecidableEq, Repr

/-- Fields of `class Book`, with the dynamic type as `kind`. -/
structure Book where
  kind : BookKind
  title : String
  author : String
  bookID : Int
  isIssued : Bool
  deriving DecidableEq, Repr

/-- Constructor `Book::Book(title, author, bookID)`, reached through the
subclass constructors: `isIssued(false)`. -/
def Book.ctor (kind : BookKind) (title author : String) (bookID : Int) : Book :=
  { kind := kind, title := title, author := author, bookID := bookID, isIssued := false }

/-- Accessor `Book::getIssuedStatus`. -/
def Book.getIssuedStatus (b : Book) : Bool := b.isIssued

/-- Accessor `Book::getBookID`. -/
def Book.getBookID (b : Book) : Int := b.bookID

/-- Body of `EBook::issueBook`. -/
def EBook_issueBook (b : Book) : Book :=
  if !b.isIssued then { b with isIssued := true } else b

/-- Body of `PrintedBook::issueBook`. -/
def PrintedBook_issueBook (b : Book) : Book :=
  if !b.isIssued then { b with isIssued := true } else b

/-- Virtual call `book.issueBook()`: dispatch on the dynamic type. -/
def Book.issueBook (b : Book) : Book :=
  match b.kind with
  | .EBook => EBook_issueBook b
  | .PrintedBook => PrintedBook_issueBook b

/-- Method `Book::returnBook` (not overridden): `isIssued = false`. -/
def Book.returnBook (b : Book) : Book := { b with isIssued := false }

/-- Factory `BookFactory::createBook`; `none` is the null `unique_ptr`. -/
def BookFactory.createBook (type title author : String) (bookID : Int) : Option Book :=
  if type == "EBook" then some (Book.ctor .EBook title author bookID)
  else if type == "PrintedBook" then some (Book.ctor .PrintedBook title author bookID)
  else none

/-! ## Members -/

/-- Fields of `class Member`. -/
structure Member where
  name : String
  memberID : Int
  borrowedBooks : List Int
  deriving DecidableEq, Repr

/-- Constructor `Member::Member(name, memberID)`: the borrowed vector starts empty. -/
def Member.ctor (name : String) (memberID : Int) : Member :=
  { name := name, memberID := memberID, borrowedBooks := [] }

/-- Accessor `Member::getName`. -/
def Member.getName (m : Member) : String := m.name

/-- Method `Member::borrowBook(Book&)`: the new member and the new book. -/
def Member.borrowBook (m : Member) (book : Book) : Member × Book :=
  if !book.getIssuedStatus then
    let book1 := book.issueBook
    ({ m with borrowedBooks := m.borrowedBooks ++ [book1.getBookID] }, book1)
  else (m, book)

/-- The pass of `std::remove(first, last, value)`: `kept` is the compacted
front written so far, the second list is the unread rest. -/
def removeLoop (value : Int) : List Int → List Int → List Int
  | kept, [] => kept
  | kept, x :: rest =>
    if x == value then removeLoop value kept rest
    else removeLoop value (kept ++ [x]) rest

/-- Idiom `v.erase(std::remove(v.begin(), v.end(), value), v.end())`: what is
left of the vector is the compacted front. -/
def eraseRemove (v : List Int) (value : Int) : List Int := removeLoop value [] v

/-- Method `Member::returnBook(Book&)`: the new member and the new book. -/
def Member.returnBook (m : Member) (book : Book) : Member × Book :=
  let book1 := book.returnBook
  ({ m with borrowedBooks := eraseRemove m.borrowedBooks book1.getBookID }, book1)

/-! ## Librarian -/

/-- Fields of `class Librarian`. -/
structure Librarian where
  name : String
  books : List Book
  members : List Member
  deriving DecidableEq, Repr

/-- Constructor `Librarian::Librarian(name)`. -/
def Librarian.ctor (name : String) : Librarian :=
  { name := name, books := [], members := [] }

/-- Method `Librarian::addBook`. -/
def Librarian.addBook (l : Librarian) (type title author : String) (bookID : Int) : Librarian :=
  match BookFactory.createBook type title author bookID with
  | some book => { l with books := l.books ++ [book] }
  | none => l

/-- The range-for of `findBookByID` over a vector: position of the first book
whose id is `bookID`. -/
def findBookIdx (bookID : Int) : List Book → Option Nat
  | [] => none
  | book :: rest =>
    if book.getBookID == bookID then some 0
    else (findBookIdx bookID rest).map (· + 1)

/-- Method `Librarian::findBookByID`: the position stands for the `Book*`. -/
def Librarian.findBookByID (l : Librarian) (bookID : Int) : Option Nat :=
  findBookIdx bookID l.books

/-- The range-for of `findOrCreateMember`: position of the first member whose
name is `name`. -/
def findMemberIdx (name : String) : List Member → Option Nat
  | [] => none
  | member :: rest =>
    if member.getName == name then some 0
    else (findMemberIdx name rest).map (· + 1)

/-- Method `Librarian::findOrCreateMember`: the new librarian and the position
that stands for the returned `Member*`. -/
def Librarian.findOrCreateMember (l : Librarian) (name : String) : Librarian × Nat :=
  match findMemberIdx name l.members with
  | some i => (l, i)
  | none =>
    let newID : Int := (l.members.length : Int) + 1
    ({ l with members := l.members ++ [Member.ctor name newID] }, l.members.length)

/-! ## Menu -/

/-- Menu case 3 of `main`. -/
def borrowCmd (l : Librarian) (memberName : String) (bookID : Int) : Librarian :=
  match l.findBookByID bookID with
  | some i =>
    let (l1, j) := l.findOrCreateMember memberName
    match l1.books[i]?, l1.members[j]? with
    | some book, some member =>
      let (member1, book1) := member.borrowBook book
      { l1 with books := l1.books.set i book1, members := l1.members.set j member1 }
    | _, _ => l1
  | none => l

/-- Menu case 4 of `main`. -/
def returnCmd (l : Librarian) (memberName : String) (bookID : Int) : Librarian :=
  match l.findBookByID bookID with
  | some i =>
    let (l1, j) := l.findOrCreateMember memberName
    match l1.books[i]?, l1.members[j]? with
    | some book, some member =>
      let (member1, book1) := member.returnBook book
      { l1 with books := l1.books.set i book1, members := l1.members.set j member1 }
    | _, _ => l1
  | none => l

/-- One pass of the menu loop, with the values read from the input. -/
inductive Cmd where
  | addBook (type title author : String) (bookID : Int)
  | displayBooks
  | borrow (memberName : String) (bookID : Int)
  | returnBook (memberName : String) (bookID : Int)
  | displayMembers
  | invalid
  deriving DecidableEq, Repr

/-- The `switch (choice)` of `main` for the choices other than 6. -/
def step (l : Librarian) : Cmd → Librarian
  | .addBook type title author bookID => l.addBook type title author bookID
  | .displayBooks => l
  | .borrow memberName bookID => borrowCmd l memberName bookID
  | .returnBook memberName bookID => returnCmd l memberName bookID
  | .displayMembers => l
  | .invalid => l

/-- The librarian `main` starts with. -/
def initial : Librarian := Librarian.ctor "Alice"

/-- The menu loop on a list of commands. -/
def run (l : Librarian) (cmds : List Cmd) : Librarian := cmds.foldl step l

/-! ## Notions used to state the properties -/

/-- The common shape of menu cases 3 and 4: look the book up, find or create
the member, run the member operation `f` on both and write the results back. -/
def transact (f : Member → Book → Member × Book) (l : Librarian) (memberName : String)
    (bookID : Int) : Librarian :=
  match l.findBookByID bookID with
  | some i =>
    let (l1, j) := l.findOrCreateMember memberName
    match l1.books[i]?, l1.members[j]? with
    | some book, some member =>
      let (member1, book1) := f member book
      { l1 with books := l1.books.set i book1, members := l1.members.set j member1 }
    | _, _ => l1
  | none => l

/-- Number of members of a roster whose borrowed list contains `bookID`. -/
def holders (ms : List Member) (bookID : Int) : Nat :=
  ms.countP (fun m => m.borrowedBooks.contains bookID)

/-- Every id of a borrowed list of the roster `ms` is found in the catalog `bs`,
and the book found is issued. -/
def BorrowedAreIssued (bs : List Book) (ms : List Member) : Prop :=
  ∀ m ∈ ms, ∀ bookID ∈ m.borrowedBooks,
    ∃ i b, findBookIdx bookID bs = some i ∧ bs[i]? = some b ∧ b.isIssued = true

/-- No id is in the borrowed lists of members at two positions of the roster. -/
def SingleHolder (ms : List Member) : Prop :=
  ∀ (j k : Nat) (m1 m2 : Member) (bookID : Int), ms[j]? = some m1 → ms[k]? = some m2 →
    bookID ∈ m1.borrowedBooks → bookID ∈ m2.borrowedBooks → j = k

/-- Every catalog book is the one that the lookup finds for its id: no two
catalog books have the same id. -/
def UniqueIds (bs : List Book) : Prop :=
  ∀ (i : Nat) (b : Book), bs[i]? = some b → findBookIdx b.bookID bs = some i

/-- Every issued book of the catalog `bs` has its id in the borrowed list of
some member of the roster `ms`. -/
def IssuedAreHeld (bs : List Book) (ms : List Member) : Prop :=
  ∀ b ∈ bs, b.isIssued = true → ∃ m ∈ ms, b.bookID ∈ m.borrowedBooks

/-- Every id of a borrowed list of the roster `ms` is found in the catalog `bs`. -/
def BorrowedAreCatalogued (bs : List Book) (ms : List Member) : Prop :=
  ∀ m ∈ ms, ∀ bookID ∈ m.borrowedBooks, ∃ i, findBookIdx bookID bs = some i

/-- The fields of a book other than the issued flag. -/
def Book.fixedPart (b : Book) : BookKind × String × String × Int :=
  (b.kind, b.title, b.author, b.bookID)

/-- The fields of a member other than the borrowed list. -/
def Member.fixedPart (m : Member) : String × Int := (m.name, m.memberID)

/-- Discipline on a return command: when the book found is issued, the member
that `findOrCreateMember` finds for the name is already on the roster and has
the id in its borrowed list.  A return command whose book is not found or not
issued passes, and so does every other command. -/
def returnsByHolder (l : Librarian) : Cmd → Bool
  | .returnBook memberName bookID =>
    match l.findBookByID bookID with
    | none => true
    | some i =>
      match l.books[i]? with
      | none => true
      | some book =>
        !book.getIssuedStatus ||
          (match findMemberIdx memberName l.members with
           | none => false
           | some j =>
             match l.members[j]? with
             | some member => member.borrowedBooks.contains bookID
             | none => false)
  | _ => true

/-- Discipline on an add command: when the kind is recognized, so that a book
is appended, the id is not yet the id of a catalog book.  An add command of
an unrecognized kind passes, and so does every other command. -/
def addsFreshId (l : Librarian) : Cmd → Bool
  | .addBook type title author bookID =>
    (BookFactory.createBook type title author bookID).isNone || (l.findBookByID bookID).isNone
  | _ => true

/-- Both disciplines at once. -/
def disciplined (l : Librarian) (c : Cmd) : Bool :=
  returnsByHolder l c && addsFreshId l c

/-- Whether every command of the list passes `ok` in the state it is run in. -/
def allowed (ok : Librarian → Cmd → Bool) : Librarian → List Cmd → Bool
  | _, [] => true
  | l, c :: cs => ok l c && allowed ok (step l c) cs

/-! ## Lookup -/

theorem findBookIdx_eq_none_iff (bookID : Int) (bs : List Book) :
    findBookIdx bookID bs = none ↔ ∀ b ∈ bs, b.bookID ≠ bookID := by
  induction bs with
  | nil => simp [findBookIdx]
  | cons b rest ih =>
    by_cases h : b.bookID = bookID
    · simp [findBookIdx, Book.getBookID, h]
    · simp [findBookIdx, Book.getBookID, h, ih]

theorem findBookIdx_eq_some_iff (bookID : Int) (bs : List Book) (i : Nat) :
    findBookIdx bookID bs = some i ↔
      (∃ b, bs[i]? = some b ∧ b.bookID = bookID) ∧
        ∀ j, j < i → ∀ b, bs[j]? = some b → b.bookID ≠ bookID := by
  induction bs generalizing i with
  | nil => simp [findBookIdx]
  | cons b rest ih =>
    by_cases h : b.bookID = bookID
    · cases i with
      | zero => simp [findBookIdx, Book.getBookID, h]
      | succ k =>
        simp only [findBookIdx, Book.getBookID, h, beq_self_eq_true, if_true]
        constructor
        · intro hk; simp at hk
        · rintro ⟨-, hmin⟩
          exact absurd h (hmin 0 (Nat.succ_pos k) b (by simp))
    · cases i with
      | zero => simp [findBookIdx, Book.getBookID, h]
      | succ k =>
        simp only [findBookIdx, Book.getBookID, h, beq_iff_eq, if_false, Option.map_eq_some',
          List.getElem?_cons_succ]
        constructor
        · rintro ⟨a, ha, hak⟩
          have hak : a = k := by omega
          subst hak
          obtain ⟨hex, hmin⟩ := (ih a).1 ha
          refine ⟨hex, ?_⟩
          intro j hj c hc
          cases j with
          | zero => simp at hc; subst hc; exact h
          | succ j => exact hmin j (by omega) c (by simpa using hc)
        · rintro ⟨hex, hmin⟩
          refine ⟨k, (ih k).2 ⟨hex, ?_⟩, rfl⟩
          intro j hj c hc
          exact hmin (j + 1) (by omega) c (by simpa using hc)

/-- C9. `Librarian::findBookByID` returns position `i` exactly when the book at
`i` has the id and no book at a smaller position has it (so with several books
of the same id it is the first), and returns "not found" exactly when no book
of the catalog has the id. -/
theorem findBookByID_first_match (l : Librarian) (bookID : Int) :
    (∀ i, l.findBookByID bookID = some i ↔
      (∃ b, l.books[i]? = some b ∧ b.getBookID = bookID) ∧
        ∀ j, j < i → ∀ b, l.books[j]? = some b → b.getBookID ≠ bookID) ∧
    (l.findBookByID bookID = none ↔ ∀ b ∈ l.books, b.getBookID ≠ bookID) :=
  ⟨fun i => findBookIdx_eq_some_iff bookID l.books i, findBookIdx_eq_none_iff bookID l.books⟩

/-! ## Factory and `addBook` -/

theorem createBook_eq_none (type title author : String) (bookID : Int)
    (h1 : type ≠ "EBook") (h2 : type ≠ "PrintedBook") :
    BookFactory.createBook type title author bookID = none := by
  simp [BookFactory.createBook, h1, h2]

/-- C10. `BookFactory::createBook` returns a book exactly for the tags "EBook"
and "PrintedBook" (compared as whole strings, so case matters); for every other
tag, such as "Audiobook", "ebook" or the empty string, it returns the null
value and `Librarian::addBook` returns the librarian it was given. -/
theorem createBook_isSome_iff (l : Librarian) (type title author : String) (bookID : Int) :
    ((BookFactory.createBook type title author bookID).isSome ↔
      (type = "EBook" ∨ type = "PrintedBook")) ∧
    (¬ (type = "EBook" ∨ type = "PrintedBook") →
      BookFactory.createBook type title author bookID = none ∧
      l.addBook type title author bookID = l) ∧
    BookFactory.createBook "Audiobook" title author bookID = none ∧
    BookFactory.createBook "ebook" title author bookID = none ∧
    BookFactory.createBook "" title author bookID = none := by
  refine ⟨?_, ?_, createBook_eq_none _ _ _ _ (by decide) (by decide),
    createBook_eq_none _ _ _ _ (by decide) (by decide),
    createBook_eq_none _ _ _ _ (by decide) (by decide)⟩
  · by_cases h1 : type = "EBook"
    · simp [BookFactory.createBook, h1]
    · by_cases h2 : type = "PrintedBook"
      · simp [BookFactory.createBook, h2]
      · simp [BookFactory.createBook, h1, h2]
  · intro h
    have h1 : type ≠ "EBook" := fun e => h (Or.inl e)
    have h2 : type ≠ "PrintedBook" := fun e => h (Or.inr e)
    have hn := createBook_eq_none type title author bookID h1 h2
    exact ⟨hn, by simp [Librarian.addBook, hn]⟩

theorem createBook_isSome_iff_witness :
    ¬ ("Audiobook" = "EBook" ∨ "Audiobook" = "PrintedBook") ∧
    (initial.addBook "Audiobook" "Dune" "Herbert" 1 = initial) :=
  ⟨by decide, ((createBook_isSome_iff initial "Audiobook" "Dune" "Herbert" 1).2.1 (by decide)).2⟩

/-! ## Member operations -/

theorem removeLoop_eq (value : Int) (kept xs : List Int) :
    removeLoop value kept xs = kept ++ xs.filter (fun x => x != value) := by
  induction xs generalizing kept with
  | nil => simp [removeLoop]
  | cons x rest ih =>
    by_cases h : x = value
    · simp [removeLoop, h, ih]
    · simp [removeLoop, h, ih]

theorem eraseRemove_eq_filter (v : List Int) (value : Int) :
    eraseRemove v value = v.filter (fun x => x != value) := by
  simp [eraseRemove, removeLoop_eq]

theorem issueBook_of_not_issued (book : Book) (h : book.isIssued = false) :
    book.issueBook = { book with isIssued := true } := by
  cases hk : book.kind <;> simp [Book.issueBook, hk, EBook_issueBook, PrintedBook_issueBook, h]

theorem borrowBook_of_not_issued (m : Member) (book : Book) (h : book.isIssued = false) :
    m.borrowBook book =
      ({ m with borrowedBooks := m.borrowedBooks ++ [book.bookID] },
        { book with isIssued := true }) := by
  simp [Member.borrowBook, Book.getIssuedStatus, h, issueBook_of_not_issued, Book.getBookID]

theorem borrowBook_of_issued (m : Member) (book : Book) (h : book.isIssued = true) :
    m.borrowBook book = (m, book) := by
  simp [Member.borrowBook, Book.getIssuedStatus, h]

theorem returnBook_eq (m : Member) (book : Book) :
    m.returnBook book =
      ({ m with borrowedBooks := m.borrowedBooks.filter (fun x => x != book.bookID) },
        { book with isIssued := false }) := by
  simp [Member.returnBook, Book.returnBook, Book.getBookID, eraseRemove_eq_filter]

/-- C3, as amended. For a book whose issued flag is false, `Member::borrowBook`
sets the flag to true (nothing else of the book changes) and appends the
book id at the end of the borrowed list (nothing else of the member changes),
so the id occurs once more than before: exactly once when it was not in the
list before the call. -/
theorem Member_borrowBook_available (m : Member) (book : Book)
    (h : book.getIssuedStatus = false) :
    (m.borrowBook book).2 = { book with isIssued := true } ∧
    (m.borrowBook book).2.getIssuedStatus = true ∧
    (m.borrowBook book).1 = { m with borrowedBooks := m.borrowedBooks ++ [book.getBookID] } ∧
    (m.borrowBook book).1.borrowedBooks.count book.getBookID =
      m.borrowedBooks.count book.getBookID + 1 ∧
    (book.getBookID ∉ m.borrowedBooks →
      (m.borrowBook book).1.borrowedBooks.count book.getBookID = 1) := by
  have h0 : book.isIssued = false := h
  rw [borrowBook_of_not_issued m book h0]
  refine ⟨rfl, rfl, rfl, ?_, ?_⟩
  · simp [Book.getBookID]
  · intro hn
    have hc : m.borrowedBooks.count book.bookID = 0 := List.count_eq_zero.2 hn
    simp [Book.getBookID, hc]

theorem Member_borrowBook_available_witness :
    (Member.borrowBook ⟨"Ann", 1, [2]⟩ ⟨.EBook, "Dune", "Herbert", 1, false⟩).1.borrowedBooks
        = [2, 1] ∧
      (Member.borrowBook ⟨"Ann", 1, [2]⟩ ⟨.EBook, "Dune", "Herbert", 1, false⟩).1.borrowedBooks.count 1
        = 1 := by
  have h := Member_borrowBook_available ⟨"Ann", 1, [2]⟩ ⟨.EBook, "Dune", "Herbert", 1, false⟩ rfl
  exact ⟨by rw [h.2.2.1]; rfl, h.2.2.2.2 (by decide)⟩

/-- C3, counterexample. After "Ann" borrowed book 1 and "Bob" returned it, the
book is available and still in the list of "Ann"; when she borrows it again
the id is in her list twice. -/
theorem Member_borrowBook_listed_twice :
    (run initial [.addBook "EBook" "Dune" "Herbert" 1, .borrow "Ann" 1,
        .returnBook "Bob" 1]).members[0]? = some ⟨"Ann", 1, [1]⟩ ∧
    (run initial [.addBook "EBook" "Dune" "Herbert" 1, .borrow "Ann" 1,
        .returnBook "Bob" 1]).books[0]? = some ⟨.EBook, "Dune", "Herbert", 1, false⟩ ∧
    Book.getIssuedStatus ⟨.EBook, "Dune", "Herbert", 1, false⟩ = false ∧
    (Member.borrowBook ⟨"Ann", 1, [1]⟩ ⟨.EBook, "Dune", "Herbert", 1, false⟩).1.borrowedBooks
      = [1, 1] ∧
    ¬ ((Member.borrowBook ⟨"Ann", 1, [1]⟩
        ⟨.EBook, "Dune", "Herbert", 1, false⟩).1.borrowedBooks.count 1 = 1) := by
  decide

/-- C4. For a book whose issued flag is true, `Member::borrowBook` changes
neither the book nor the member: the flag stays true and the borrowed list is
the one before the call. -/
theorem Member_borrowBook_issued (m : Member) (book : Book)
    (h : book.getIssuedStatus = true) :
    m.borrowBook book = (m, book) ∧
    (m.borrowBook book).2.getIssuedStatus = true ∧
    (m.borrowBook book).1.borrowedBooks = m.borrowedBooks := by
  have h0 : book.isIssued = true := h
  rw [borrowBook_of_issued m book h0]
  exact ⟨rfl, h, rfl⟩

theorem Member_borrowBook_issued_witness :
    Member.borrowBook ⟨"Bob", 2, [7]⟩ ⟨.PrintedBook, "1984", "Orwell", 2, true⟩ =
      (⟨"Bob", 2, [7]⟩, ⟨.PrintedBook, "1984", "Orwell", 2, true⟩) :=
  (Member_borrowBook_issued ⟨"Bob", 2, [7]⟩ ⟨.PrintedBook, "1984", "Orwell", 2, true⟩ rfl).1

/-- C6. Whatever the issued flag of the book was, `Member::returnBook` leaves
the flag false (nothing else of the book changes) and leaves as borrowed list
the old list without the occurrences of the book id, the other ids in
their old order (nothing else of the member changes); when the id was not in
the list, the member is unchanged. -/
theorem Member_returnBook_spec (m : Member) (book : Book) :
    (m.returnBook book).2 = { book with isIssued := false } ∧
    (m.returnBook book).2.getIssuedStatus = false ∧
    (m.returnBook book).1 =
      { m with borrowedBooks := m.borrowedBooks.filter (fun x => x != book.getBookID) } ∧
    book.getBookID ∉ (m.returnBook book).1.borrowedBooks ∧
    (m.returnBook book).1.borrowedBooks.Sublist m.borrowedBooks ∧
    (∀ x, x ≠ book.getBookID →
      (m.returnBook book).1.borrowedBooks.count x = m.borrowedBooks.count x) ∧
    (book.getBookID ∉ m.borrowedBooks → (m.returnBook book).1 = m) := by
  rw [returnBook_eq]
  refine ⟨rfl, rfl, rfl, ?_, ?_, ?_, ?_⟩
  · simp [Book.getBookID]
  · exact List.filter_sublist _
  · intro x hx
    simp only [Book.getBookID] at hx
    rw [List.count_filter]
    simpa using hx
  · intro hn
    simp only [Book.getBookID] at hn
    have : m.borrowedBooks.filter (fun x => x != book.bookID) = m.borrowedBooks := by
      rw [List.filter_eq_self]
      intro a ha
      have : a ≠ book.bookID := fun e => hn (e ▸ ha)
      simpa using this
    simp [this]

theorem Member_returnBook_spec_witness :
    Member.returnBook ⟨"Bob", 2, [7, 3]⟩ ⟨.PrintedBook, "1984", "Orwell", 2, true⟩ =
      (⟨"Bob", 2, [7, 3]⟩, ⟨.PrintedBook, "1984", "Orwell", 2, false⟩) := by
  have h := Member_returnBook_spec ⟨"Bob", 2, [7, 3]⟩ ⟨.PrintedBook, "1984", "Orwell", 2, true⟩
  exact Prod.ext (h.2.2.2.2.2.2 (by decide)) h.1

/-! ## The roster -/

theorem findMemberIdx_eq_none_iff (name : String) (ms : List Member) :
    findMemberIdx name ms = none ↔ ∀ m ∈ ms, m.name ≠ name := by
  induction ms with
  | nil => simp [findMemberIdx]
  | cons m rest ih =>
    by_cases h : m.name = name
    · simp [findMemberIdx, Member.getName, h]
    · simp [findMemberIdx, Member.getName, h, ih]

theorem findMemberIdx_some_get (name : String) (ms : List Member) (i : Nat)
    (h : findMemberIdx name ms = some i) : ∃ m, ms[i]? = some m ∧ m.name = name := by
  induction ms generalizing i with
  | nil => simp [findMemberIdx] at h
  | cons m rest ih =>
    by_cases hn : m.name = name
    · simp only [findMemberIdx, Member.getName, hn, beq_self_eq_true, if_true] at h
      have hi : i = 0 := by simpa using h.symm
      subst hi
      exact ⟨m, by simp, hn⟩
    · simp only [findMemberIdx, Member.getName, hn, beq_iff_eq, if_false,
        Option.map_eq_some'] at h
      obtain ⟨a, ha, rfl⟩ := h
      obtain ⟨m1, hm1, hname⟩ := ih a ha
      exact ⟨m1, by simpa using hm1, hname⟩

theorem findMemberIdx_append_of_some (name : String) (ms ms1 : List Member) (i : Nat)
    (h : findMemberIdx name ms = some i) : findMemberIdx name (ms ++ ms1) = some i := by
  induction ms generalizing i with
  | nil => simp [findMemberIdx] at h
  | cons m rest ih =>
    by_cases hn : m.name = name
    · simp only [findMemberIdx, Member.getName, hn, beq_self_eq_true, if_true] at h
      simp [findMemberIdx, Member.getName, hn, h]
    · simp only [findMemberIdx, Member.getName, hn, beq_iff_eq, if_false,
        Option.map_eq_some'] at h
      obtain ⟨a, ha, rfl⟩ := h
      simp [findMemberIdx, Member.getName, hn, ih a ha]

theorem findMemberIdx_append_new (name : String) (ms : List Member) (k : Int)
    (h : findMemberIdx name ms = none) :
    findMemberIdx name (ms ++ [Member.ctor name k]) = some ms.length := by
  induction ms with
  | nil => simp [findMemberIdx, Member.getName, Member.ctor]
  | cons m rest ih =>
    by_cases hn : m.name = name
    · simp [findMemberIdx, Member.getName, hn] at h
    · simp only [findMemberIdx, Member.getName, hn, beq_iff_eq, if_false,
        Option.map_eq_none'] at h
      simp [findMemberIdx, Member.getName, hn, ih h]

theorem findOrCreateMember_of_some (l : Librarian) (name : String) (i : Nat)
    (h : findMemberIdx name l.members = some i) : l.findOrCreateMember name = (l, i) := by
  simp [Librarian.findOrCreateMember, h]

theorem findOrCreateMember_of_none (l : Librarian) (name : String)
    (h : findMemberIdx name l.members = none) :
    l.findOrCreateMember name =
      ({ l with members := l.members ++ [Member.ctor name ((l.members.length : Int) + 1)] },
        l.members.length) := by
  simp [Librarian.findOrCreateMember, h]

theorem findOrCreateMember_books (l : Librarian) (name : String) :
    (l.findOrCreateMember name).1.books = l.books ∧
      (l.findOrCreateMember name).1.name = l.name := by
  cases h : findMemberIdx name l.members with
  | none => simp [findOrCreateMember_of_none l name h]
  | some i => simp [findOrCreateMember_of_some l name i h]

theorem findOrCreateMember_get (l : Librarian) (name : String) :
    ∃ m, (l.findOrCreateMember name).1.members[(l.findOrCreateMember name).2]? = some m ∧
      m.name = name ∧
      findMemberIdx name (l.findOrCreateMember name).1.members
        = some (l.findOrCreateMember name).2 := by
  cases h : findMemberIdx name l.members with
  | none =>
    rw [findOrCreateMember_of_none l name h]
    exact ⟨Member.ctor name ((l.members.length : Int) + 1), by simp, rfl,
      findMemberIdx_append_new name l.members _ h⟩
  | some i =>
    rw [findOrCreateMember_of_some l name i h]
    obtain ⟨m, hm, hn⟩ := findMemberIdx_some_get name l.members i h
    exact ⟨m, hm, hn, h⟩

/-- C7. Two calls of `Librarian::findOrCreateMember` in a row with the same
name return the same roster position, at which the same member (so the same
id) with that name stands; the second call returns the librarian unchanged;
and when some member of the roster has the name, the first call returns the
librarian unchanged as well. -/
theorem findOrCreateMember_idempotent (l : Librarian) (name : String) :
    ((l.findOrCreateMember name).1.findOrCreateMember name).2 = (l.findOrCreateMember name).2 ∧
    ((l.findOrCreateMember name).1.findOrCreateMember name).1 = (l.findOrCreateMember name).1 ∧
    (∃ m, (l.findOrCreateMember name).1.members[(l.findOrCreateMember name).2]? = some m ∧
      ((l.findOrCreateMember name).1.findOrCreateMember name).1.members[
        ((l.findOrCreateMember name).1.findOrCreateMember name).2]? = some m ∧
      m.getName = name) ∧
    ((∃ m ∈ l.members, m.getName = name) → (l.findOrCreateMember name).1 = l) := by
  obtain ⟨m, hm, hn, hfind⟩ := findOrCreateMember_get l name
  have h2 := findOrCreateMember_of_some (l.findOrCreateMember name).1 name _ hfind
  refine ⟨by rw [h2], by rw [h2], ⟨m, hm, by rw [h2]; exact hm, hn⟩, ?_⟩
  rintro ⟨m1, hm1, hname⟩
  cases h : findMemberIdx name l.members with
  | none => exact absurd hname ((findMemberIdx_eq_none_iff name l.members).1 h m1 hm1)
  | some i => rw [findOrCreateMember_of_some l name i h]

theorem findOrCreateMember_idempotent_witness :
    (∃ m ∈ (run initial [.addBook "EBook" "Dune" "Herbert" 1, .borrow "Ann" 1]).members,
      m.getName = "Ann") ∧
    ((run initial [.addBook "EBook" "Dune" "Herbert" 1, .borrow "Ann" 1]).findOrCreateMember
      "Ann").1 = run initial [.addBook "EBook" "Dune" "Herbert" 1, .borrow "Ann" 1] :=
  ⟨by decide, (findOrCreateMember_idempotent
    (run initial [.addBook "EBook" "Dune" "Herbert" 1, .borrow "Ann" 1]) "Ann").2.2.2
      (by decide)⟩

/-! ## The borrow and return commands -/

theorem borrowCmd_eq_transact : borrowCmd = transact Member.borrowBook := rfl

theorem returnCmd_eq_transact : returnCmd = transact Member.returnBook := rfl

theorem set_eq_of_getElem? {α : Type} (xs : List α) (i : Nat) (a : α) (h : xs[i]? = some a) :
    xs.set i a = xs := by
  induction xs generalizing i with
  | nil => simp
  | cons x rest ih =>
    cases i with
    | zero => simp at h; simp [h]
    | succ k => simp at h; simp [ih k h]

theorem transact_of_none (f : Member → Book → Member × Book) (l : Librarian) (name : String)
    (bookID : Int) (h : findBookIdx bookID l.books = none) : transact f l name bookID = l := by
  simp [transact, Librarian.findBookByID, h]

theorem transact_of_some (f : Member → Book → Member × Book) (l : Librarian) (name : String)
    (bookID : Int) (i : Nat) (book : Book) (member : Member)
    (hi : findBookIdx bookID l.books = some i) (hb : l.books[i]? = some book)
    (hm : (l.findOrCreateMember name).1.members[(l.findOrCreateMember name).2]? = some member) :
    transact f l name bookID =
      { name := l.name, books := l.books.set i (f member book).2,
        members := (l.findOrCreateMember name).1.members.set (l.findOrCreateMember name).2
          (f member book).1 } := by
  obtain ⟨hbooks, hname⟩ := findOrCreateMember_books l name
  rcases hfc : l.findOrCreateMember name with ⟨l1, j⟩
  rw [hfc] at hm hbooks hname
  simp only at hm hbooks hname
  simp [transact, Librarian.findBookByID, hi, hfc, hbooks, hb, hm, hname]

/-- What a borrow or return command does, by cases on the lookup. -/
theorem transact_cases (f : Member → Book → Member × Book) (l : Librarian) (name : String)
    (bookID : Int) :
    (findBookIdx bookID l.books = none ∧ transact f l name bookID = l) ∨
    ∃ i book j member ms,
      findBookIdx bookID l.books = some i ∧ l.books[i]? = some book ∧ book.bookID = bookID ∧
      ms[j]? = some member ∧ member.name = name ∧
      ((findMemberIdx name l.members = some j ∧ ms = l.members) ∨
        (findMemberIdx name l.members = none ∧ j = l.members.length ∧
          member = Member.ctor name ((l.members.length : Int) + 1) ∧
          ms = l.members ++ [member])) ∧
      transact f l name bookID =
        { name := l.name, books := l.books.set i (f member book).2,
          members := ms.set j (f member book).1 } := by
  cases hi : findBookIdx bookID l.books with
  | none => exact Or.inl ⟨rfl, transact_of_none f l name bookID hi⟩
  | some i =>
    right
    obtain ⟨⟨book, hb, hid⟩, -⟩ := (findBookIdx_eq_some_iff bookID l.books i).1 hi
    obtain ⟨member, hm, hn, -⟩ := findOrCreateMember_get l name
    refine ⟨i, book, (l.findOrCreateMember name).2, member,
      (l.findOrCreateMember name).1.members, rfl, hb, hid, hm, hn, ?_,
      transact_of_some f l name bookID i book member hi hb hm⟩
    cases hf : findMemberIdx name l.members with
    | none =>
      right
      rw [findOrCreateMember_of_none l name hf] at hm ⊢
      simp only [List.length_append, List.getElem?_concat_length, Option.some.injEq] at hm
      simp [hm]
    | some j0 =>
      left
      rw [findOrCreateMember_of_some l name j0 hf]
      exact ⟨rfl, rfl⟩

theorem run_induction (P : Librarian → Prop) (hstep : ∀ l c, P l → P (step l c)) :
    ∀ (cmds : List Cmd) (l : Librarian), P l → P (run l cmds) := by
  intro cmds
  induction cmds with
  | nil => intro l h; exact h
  | cons c cs ih => intro l h; exact ih (step l c) (hstep l c h)

theorem run_induction_allowed (ok : Librarian → Cmd → Bool) (P : Librarian → Prop)
    (hstep : ∀ l c, P l → ok l c = true → P (step l c)) :
    ∀ (cmds : List Cmd) (l : Librarian), P l → allowed ok l cmds = true → P (run l cmds) := by
  intro cmds
  induction cmds with
  | nil => intro l h _; exact h
  | cons c cs ih =>
    intro l h ha
    simp only [allowed, Bool.and_eq_true] at ha
    exact ih (step l c) (hstep l c h ha.1) ha.2

/-- C5, as amended. A borrow command (menu choice 3) whose book is found and
already issued does exactly what `findOrCreateMember` does: the catalog is
unchanged; when a member of the roster has the name, the whole state is
unchanged; otherwise the roster gains, at its end, a member with that name,
the next id and an empty borrowed list, and the members before it are
unchanged. -/
theorem borrowCmd_issued (l : Librarian) (memberName : String) (bookID : Int) (i : Nat)
    (book : Book) (hi : l.findBookByID bookID = some i) (hb : l.books[i]? = some book)
    (hiss : book.getIssuedStatus = true) :
    borrowCmd l memberName bookID = (l.findOrCreateMember memberName).1 ∧
    (borrowCmd l memberName bookID).books = l.books ∧
    ((∃ m ∈ l.members, m.getName = memberName) → borrowCmd l memberName bookID = l) ∧
    ((∀ m ∈ l.members, m.getName ≠ memberName) →
      (borrowCmd l memberName bookID).members =
        l.members ++ [⟨memberName, (l.members.length : Int) + 1, []⟩]) := by
  obtain ⟨member, hm, -, hfind⟩ := findOrCreateMember_get l memberName
  have hiss1 : book.isIssued = true := hiss
  have hEq : borrowCmd l memberName bookID = (l.findOrCreateMember memberName).1 := by
    rw [borrowCmd_eq_transact, transact_of_some _ l memberName bookID i book member hi hb hm,
      borrowBook_of_issued member book hiss1]
    obtain ⟨hbooks, hname⟩ := findOrCreateMember_books l memberName
    simp only [set_eq_of_getElem? _ _ _ hb, set_eq_of_getElem? _ _ _ hm]
    rw [← hbooks, ← hname]
  refine ⟨hEq, by rw [hEq]; exact (findOrCreateMember_books l memberName).1, ?_, ?_⟩
  · rintro ⟨m1, hm1, hname⟩
    rw [hEq]
    cases h : findMemberIdx memberName l.members with
    | none => exact absurd hname ((findMemberIdx_eq_none_iff memberName l.members).1 h m1 hm1)
    | some j => rw [findOrCreateMember_of_some l memberName j h]
  · intro hall
    rw [hEq, findOrCreateMember_of_none l memberName
      ((findMemberIdx_eq_none_iff memberName l.members).2 hall)]
    rfl

theorem borrowCmd_issued_witness :
    borrowCmd (run initial [.addBook "EBook" "Dune" "Herbert" 1, .borrow "Ann" 1]) "Ann" 1 =
      run initial [.addBook "EBook" "Dune" "Herbert" 1, .borrow "Ann" 1] :=
  (borrowCmd_issued (run initial [.addBook "EBook" "Dune" "Herbert" 1, .borrow "Ann" 1])
    "Ann" 1 0 ⟨.EBook, "Dune", "Herbert", 1, true⟩ (by decide) (by decide) rfl).2.2.1
    (by decide)

/-- C5, counterexample. Book 1 is issued to "Ann"; a borrow command for book 1
by the unknown name "Bob" finds the issued book and yet changes the state:
the roster gains the member "Bob". -/
theorem borrowCmd_issued_adds_member :
    (run initial [.addBook "EBook" "Dune" "Herbert" 1, .borrow "Ann" 1]).findBookByID 1
      = some 0 ∧
    (run initial [.addBook "EBook" "Dune" "Herbert" 1, .borrow "Ann" 1]).books[0]?
      = some ⟨.EBook, "Dune", "Herbert", 1, true⟩ ∧
    (run initial [.addBook "EBook" "Dune" "Herbert" 1, .borrow "Ann" 1]).members
      = [⟨"Ann", 1, [1]⟩] ∧
    (borrowCmd (run initial [.addBook "EBook" "Dune" "Herbert" 1, .borrow "Ann" 1])
      "Bob" 1).members = [⟨"Ann", 1, [1]⟩, ⟨"Bob", 2, []⟩] ∧
    borrowCmd (run initial [.addBook "EBook" "Dune" "Herbert" 1, .borrow "Ann" 1]) "Bob" 1
      ≠ run initial [.addBook "EBook" "Dune" "Herbert" 1, .borrow "Ann" 1] := by
  decide

/-! ## Member ids -/

theorem borrowBook_fst (m : Member) (book : Book) :
    (m.borrowBook book).1.name = m.name ∧ (m.borrowBook book).1.memberID = m.memberID := by
  cases h : book.isIssued with
  | false => simp [borrowBook_of_not_issued m book h]
  | true => simp [borrowBook_of_issued m book h]

theorem returnBook_fst (m : Member) (book : Book) :
    (m.returnBook book).1.name = m.name ∧ (m.returnBook book).1.memberID = m.memberID := by
  simp [returnBook_eq]

theorem addBook_members (l : Librarian) (type title author : String) (bookID : Int) :
    (l.addBook type title author bookID).members = l.members := by
  unfold Librarian.addBook
  split <;> rfl

theorem seqIds_append (ms : List Member) (name : String)
    (h : ∀ (k : Nat) (m : Member), ms[k]? = some m → m.memberID = (k : Int) + 1) :
    ∀ (k : Nat) (m : Member), (ms ++ [Member.ctor name ((ms.length : Int) + 1)])[k]? = some m →
      m.memberID = (k : Int) + 1 := by
  intro k m hk
  rw [List.getElem?_append] at hk
  split at hk
  · exact h k m hk
  · rename_i hlt
    have hlen : ms.length ≤ k := Nat.le_of_not_lt hlt
    cases hd : k - ms.length with
    | zero =>
      have hkl : k = ms.length := by omega
      rw [hd] at hk
      simp only [List.getElem?_cons_zero, Option.some.injEq] at hk
      subst hk
      simp [Member.ctor, hkl]
    | succ d => rw [hd] at hk; simp at hk

theorem seqIds_set (ms : List Member) (j : Nat) (member x : Member)
    (h : ∀ (k : Nat) (m : Member), ms[k]? = some m → m.memberID = (k : Int) + 1)
    (hj : ms[j]? = some member) (hx : x.memberID = member.memberID) :
    ∀ (k : Nat) (m : Member), (ms.set j x)[k]? = some m → m.memberID = (k : Int) + 1 := by
  intro k m hk
  by_cases hjk : j = k
  · subst hjk
    have hlt : j < ms.length := (List.getElem?_eq_some.1 hj).1
    rw [List.getElem?_set_self hlt] at hk
    simp only [Option.some.injEq] at hk
    subst hk
    rw [hx]
    exact h j member hj
  · rw [List.getElem?_set_ne hjk] at hk
    exact h k m hk

theorem transact_seqIds (f : Member → Book → Member × Book)
    (hf : ∀ m b, (f m b).1.memberID = m.memberID) (l : Librarian) (name : String)
    (bookID : Int) (h : ∀ (k : Nat) (m : Member), l.members[k]? = some m → m.memberID = (k : Int) + 1) :
    ∀ (k : Nat) (m : Member), (transact f l name bookID).members[k]? = some m → m.memberID = (k : Int) + 1 := by
  rcases transact_cases f l name bookID with ⟨-, heq⟩ | ⟨i, book, j, member, ms, -, -, -, hj,
    -, hms, heq⟩
  · rw [heq]; exact h
  · rw [heq]
    refine seqIds_set ms j member _ ?_ hj (hf member book)
    rcases hms with ⟨-, rfl⟩ | ⟨-, -, hmem, rfl⟩
    · exact h
    · rw [hmem]; exact seqIds_append l.members name h

theorem step_seqIds (l : Librarian) (c : Cmd)
    (h : ∀ (k : Nat) (m : Member), l.members[k]? = some m → m.memberID = (k : Int) + 1) :
    ∀ (k : Nat) (m : Member), (step l c).members[k]? = some m → m.memberID = (k : Int) + 1 := by
  cases c with
  | addBook type title author bookID =>
    simp only [step, addBook_members]; exact h
  | displayBooks => exact h
  | borrow memberName bookID =>
    exact transact_seqIds _ (fun m b => (borrowBook_fst m b).2) l memberName bookID h
  | returnBook memberName bookID =>
    exact transact_seqIds _ (fun m b => (returnBook_fst m b).2) l memberName bookID h
  | displayMembers => exact h
  | invalid => exact h

/-- C8. In every state the menu loop reaches from the empty library, the member
at position `k` of the roster, counted from 0, has id `k + 1`; and
`findOrCreateMember` on a name that no member of the roster has returns the
last position of a roster that is the old one with one member appended:
that name, the old roster size plus one as id, an empty borrowed list. -/
theorem memberID_sequential (cmds : List Cmd) (l : Librarian) (name : String) :
    (∀ (k : Nat) (m : Member), (run initial cmds).members[k]? = some m → m.memberID = (k : Int) + 1) ∧
    ((∀ m ∈ l.members, m.getName ≠ name) →
      (l.findOrCreateMember name).1.members =
        l.members ++ [⟨name, (l.members.length : Int) + 1, []⟩] ∧
      (l.findOrCreateMember name).2 = l.members.length ∧
      (l.findOrCreateMember name).1.books = l.books) := by
  constructor
  · refine run_induction (fun s => ∀ (k : Nat) (m : Member), s.members[k]? = some m → m.memberID = (k : Int) + 1)
      step_seqIds cmds initial ?_
    intro k m hk
    simp [initial, Librarian.ctor] at hk
  · intro hall
    rw [findOrCreateMember_of_none l name ((findMemberIdx_eq_none_iff name l.members).2 hall)]
    exact ⟨rfl, rfl, rfl⟩

theorem memberID_sequential_witness :
    (∀ m ∈ (run initial [.addBook "EBook" "Dune" "Herbert" 1, .borrow "Ann" 1]).members,
      m.getName ≠ "Bob") ∧
    ((run initial [.addBook "EBook" "Dune" "Herbert" 1, .borrow "Ann" 1]).findOrCreateMember
      "Bob").1.members = [⟨"Ann", 1, [1]⟩, ⟨"Bob", 2, []⟩] :=
  ⟨by decide, ((memberID_sequential [] (run initial [.addBook "EBook" "Dune" "Herbert" 1,
    .borrow "Ann" 1]) "Bob").2 (by decide)).1⟩

/-! ## Borrowed ids and issued flags -/

theorem findBookIdx_set (bookID : Int) (bs : List Book) (i : Nat) (book book1 : Book)
    (hb : bs[i]? = some book) (hid : book1.bookID = book.bookID) :
    findBookIdx bookID (bs.set i book1) = findBookIdx bookID bs := by
  induction bs generalizing i with
  | nil => simp
  | cons b rest ih =>
    cases i with
    | zero =>
      simp only [List.getElem?_cons_zero, Option.some.injEq] at hb
      subst hb
      simp [findBookIdx, Book.getBookID, hid]
    | succ k =>
      simp only [List.getElem?_cons_succ] at hb
      simp [findBookIdx, ih k hb]

theorem findBookIdx_append_of_some (bookID : Int) (bs bs1 : List Book) (i : Nat)
    (h : findBookIdx bookID bs = some i) : findBookIdx bookID (bs ++ bs1) = some i := by
  induction bs generalizing i with
  | nil => simp [findBookIdx] at h
  | cons b rest ih =>
    by_cases hn : b.bookID = bookID
    · simp only [findBookIdx, Book.getBookID, hn, beq_self_eq_true, if_true] at h
      simp [findBookIdx, Book.getBookID, hn, h]
    · simp only [findBookIdx, Book.getBookID, hn, beq_iff_eq, if_false,
        Option.map_eq_some'] at h
      obtain ⟨a, ha, rfl⟩ := h
      simp [findBookIdx, Book.getBookID, hn, ih a ha]

theorem borrowedAreIssued_append_book (bs : List Book) (ms : List Member) (bs1 : List Book)
    (h : BorrowedAreIssued bs ms) : BorrowedAreIssued (bs ++ bs1) ms := by
  intro m hm bookID hid
  obtain ⟨i, b, hi, hb, hiss⟩ := h m hm bookID hid
  have hlt : i < bs.length := (List.getElem?_eq_some.1 hb).1
  exact ⟨i, b, findBookIdx_append_of_some bookID bs bs1 i hi,
    by rw [List.getElem?_append_left hlt]; exact hb, hiss⟩

theorem borrowedAreIssued_append_new (bs : List Book) (ms : List Member) (name : String)
    (k : Int) (h : BorrowedAreIssued bs ms) :
    BorrowedAreIssued bs (ms ++ [Member.ctor name k]) := by
  intro m hm bookID hid
  rcases List.mem_append.1 hm with hm | hm
  · exact h m hm bookID hid
  · simp only [List.mem_singleton] at hm
    subst hm
    simp [Member.ctor] at hid

theorem singleHolder_append_new (ms : List Member) (name : String) (k : Int)
    (h : SingleHolder ms) : SingleHolder (ms ++ [Member.ctor name k]) := by
  have key : ∀ (j : Nat) (m : Member) (bookID : Int),
      (ms ++ [Member.ctor name k])[j]? = some m → bookID ∈ m.borrowedBooks →
        ms[j]? = some m := by
    intro j m bookID hj hid
    rw [List.getElem?_append] at hj
    split at hj
    · exact hj
    · exfalso
      cases hd : j - ms.length with
      | zero =>
        rw [hd] at hj
        simp only [List.getElem?_cons_zero, Option.some.injEq] at hj
        subst hj
        simp [Member.ctor] at hid
      | succ d => rw [hd] at hj; simp at hj
  intro j k1 m1 m2 bookID hj hk h1 h2
  exact h j k1 m1 m2 bookID (key j m1 bookID hj h1) (key k1 m2 bookID hk h2) h1 h2

/-- Setting the issued flag of a catalog book keeps every borrowed id found
and issued. -/
theorem borrowedAreIssued_set_issued (bs : List Book) (ms : List Member) (i : Nat)
    (book : Book) (hb : bs[i]? = some book) (h : BorrowedAreIssued bs ms) :
    BorrowedAreIssued (bs.set i { book with isIssued := true }) ms := by
  intro m hm bookID hid
  obtain ⟨i1, b1, hi1, hb1, hiss⟩ := h m hm bookID hid
  have hlt : i < bs.length := (List.getElem?_eq_some.1 hb).1
  have hf := findBookIdx_set bookID bs i book { book with isIssued := true } hb rfl
  rw [hf]
  by_cases hii : i = i1
  · subst hii
    exact ⟨i, _, hi1, List.getElem?_set_self hlt, rfl⟩
  · exact ⟨i1, b1, hi1, by rw [List.getElem?_set_ne hii]; exact hb1, hiss⟩

theorem getElem?_set_cases {α : Type} (xs : List α) (j k : Nat) (x a : α)
    (h : (xs.set j x)[k]? = some a) : (k = j ∧ a = x) ∨ (k ≠ j ∧ xs[k]? = some a) := by
  by_cases hjk : j = k
  · subst hjk
    rw [List.getElem?_set] at h
    simp only [if_true] at h
    split at h
    · exact Or.inl ⟨rfl, (Option.some.inj h).symm⟩
    · simp at h
  · rw [List.getElem?_set_ne hjk] at h
    exact Or.inr ⟨fun e => hjk e.symm, h⟩

theorem transact_roster_inv (l : Librarian) (name : String) (j : Nat) (member : Member)
    (ms : List Member) (ha : BorrowedAreIssued l.books l.members)
    (hs : SingleHolder l.members)
    (hms : (findMemberIdx name l.members = some j ∧ ms = l.members) ∨
      (findMemberIdx name l.members = none ∧ j = l.members.length ∧
        member = Member.ctor name ((l.members.length : Int) + 1) ∧
        ms = l.members ++ [member])) :
    BorrowedAreIssued l.books ms ∧ SingleHolder ms := by
  rcases hms with ⟨-, rfl⟩ | ⟨-, -, hmem, rfl⟩
  · exact ⟨ha, hs⟩
  · rw [hmem]
    exact ⟨borrowedAreIssued_append_new _ _ _ _ ha, singleHolder_append_new _ _ _ hs⟩

theorem borrow_preserves (l : Librarian) (name : String) (bookID : Int)
    (ha : BorrowedAreIssued l.books l.members) (hs : SingleHolder l.members) :
    BorrowedAreIssued (borrowCmd l name bookID).books (borrowCmd l name bookID).members ∧
      SingleHolder (borrowCmd l name bookID).members := by
  rw [borrowCmd_eq_transact]
  rcases transact_cases Member.borrowBook l name bookID with
    ⟨-, heq⟩ | ⟨i, book, j, member, ms, hi, hb, hid, hj, -, hms, heq⟩
  · rw [heq]; exact ⟨ha, hs⟩
  · obtain ⟨ha1, hs1⟩ := transact_roster_inv l name j member ms ha hs hms
    rw [heq]
    cases hiss : book.isIssued with
    | true =>
      rw [borrowBook_of_issued member book hiss]
      simp only [set_eq_of_getElem? _ _ _ hb, set_eq_of_getElem? _ _ _ hj]
      exact ⟨ha1, hs1⟩
    | false =>
      rw [borrowBook_of_not_issued member book hiss]
      simp only
      subst hid
      have hnobody : ∀ (k : Nat) (m : Member), ms[k]? = some m →
          book.bookID ∉ m.borrowedBooks := by
        intro k m hk hmem
        obtain ⟨i1, b1, hi1, hb1, hiss1⟩ :=
          ha1 m (List.mem_iff_getElem?.2 ⟨k, hk⟩) book.bookID hmem
        rw [hi] at hi1
        cases hi1
        rw [hb] at hb1
        cases hb1
        rw [hiss] at hiss1
        cases hiss1
      have hmemj : member ∈ ms := List.mem_iff_getElem?.2 ⟨j, hj⟩
      have hlt : i < l.books.length := (List.getElem?_eq_some.1 hb).1
      have ha2 := borrowedAreIssued_set_issued l.books ms i book hb ha1
      constructor
      · intro m hm id1 hid1
        rcases List.mem_or_eq_of_mem_set hm with hm | rfl
        · exact ha2 m hm id1 hid1
        · simp only [List.mem_append, List.mem_singleton] at hid1
          rcases hid1 with hid1 | rfl
          · exact ha2 member hmemj id1 hid1
          · refine ⟨i, _, ?_, List.getElem?_set_self hlt, rfl⟩
            have hf := findBookIdx_set book.bookID l.books i book
              { book with isIssued := true } hb rfl
            rw [hf]
            exact hi
      · intro j1 k1 m1 m2 id1 hj1 hk1 h1 h2
        by_cases hid1 : id1 = book.bookID
        · subst hid1
          have only : ∀ (k : Nat) (m : Member),
              (ms.set j { member with
                borrowedBooks := member.borrowedBooks ++ [book.bookID] })[k]? = some m →
              book.bookID ∈ m.borrowedBooks → k = j := by
            intro k m hk hm
            rcases getElem?_set_cases ms j k _ m hk with ⟨rfl, -⟩ | ⟨-, hk0⟩
            · rfl
            · exact absurd hm (hnobody k m hk0)
          rw [only j1 m1 hj1 h1, only k1 m2 hk1 h2]
        · have back : ∀ (k : Nat) (m : Member),
              (ms.set j { member with
                borrowedBooks := member.borrowedBooks ++ [book.bookID] })[k]? = some m →
              id1 ∈ m.borrowedBooks → ∃ m0, ms[k]? = some m0 ∧ id1 ∈ m0.borrowedBooks := by
            intro k m hk hm
            rcases getElem?_set_cases ms j k _ m hk with ⟨rfl, rfl⟩ | ⟨-, hk0⟩
            · refine ⟨member, hj, ?_⟩
              simp only [List.mem_append, List.mem_singleton] at hm
              rcases hm with hm | hm
              · exact hm
              · exact absurd hm hid1
            · exact ⟨m, hk0, hm⟩
          obtain ⟨a1, ha1j, hh1⟩ := back j1 m1 hj1 h1
          obtain ⟨a2, ha2k, hh2⟩ := back k1 m2 hk1 h2
          exact hs1 j1 k1 a1 a2 id1 ha1j ha2k hh1 hh2

theorem returnsByHolder_spec (l : Librarian) (name : String) (bookID : Int) (i : Nat)
    (book : Book) (hi : findBookIdx bookID l.books = some i) (hb : l.books[i]? = some book)
    (hiss : book.isIssued = true)
    (hg : returnsByHolder l (.returnBook name bookID) = true) :
    ∃ j member, findMemberIdx name l.members = some j ∧ l.members[j]? = some member ∧
      bookID ∈ member.borrowedBooks := by
  simp only [returnsByHolder, Librarian.findBookByID, hi, hb, Book.getIssuedStatus, hiss,
    Bool.not_true, Bool.false_or] at hg
  cases hf : findMemberIdx name l.members with
  | none => rw [hf] at hg; simp at hg
  | some j =>
    rw [hf] at hg
    simp only at hg
    cases hm : l.members[j]? with
    | none => rw [hm] at hg; simp at hg
    | some member =>
      rw [hm] at hg
      exact ⟨j, member, rfl, hm, by simpa using hg⟩

theorem return_preserves (l : Librarian) (name : String) (bookID : Int)
    (hg : returnsByHolder l (.returnBook name bookID) = true)
    (ha : BorrowedAreIssued l.books l.members) (hs : SingleHolder l.members) :
    BorrowedAreIssued (returnCmd l name bookID).books (returnCmd l name bookID).members ∧
      SingleHolder (returnCmd l name bookID).members := by
  rw [returnCmd_eq_transact]
  rcases transact_cases Member.returnBook l name bookID with
    ⟨-, heq⟩ | ⟨i, book, j, member, ms, hi, hb, hid, hj, -, hms, heq⟩
  · rw [heq]; exact ⟨ha, hs⟩
  · obtain ⟨ha1, hs1⟩ := transact_roster_inv l name j member ms ha hs hms
    rw [heq, returnBook_eq]
    simp only
    subst hid
    have hother : ∀ (k : Nat) (m : Member), ms[k]? = some m → k ≠ j →
        book.bookID ∉ m.borrowedBooks := by
      intro k m hk hne hin
      cases hiss : book.isIssued with
      | false =>
        obtain ⟨i1, b1, hi1, hb1, hiss1⟩ :=
          ha1 m (List.mem_iff_getElem?.2 ⟨k, hk⟩) book.bookID hin
        rw [hi] at hi1
        cases hi1
        rw [hb] at hb1
        cases hb1
        rw [hiss] at hiss1
        cases hiss1
      | true =>
        obtain ⟨j0, member0, hf0, hm0, hheld0⟩ :=
          returnsByHolder_spec l name book.bookID i book hi hb hiss hg
        rcases hms with ⟨hf, rfl⟩ | ⟨hf, -⟩
        · rw [hf] at hf0
          cases hf0
          rw [hj] at hm0
          cases hm0
          exact hne (hs k j m member book.bookID hk hj hin hheld0)
        · rw [hf] at hf0
          cases hf0
    have back : ∀ (k : Nat) (m : Member) (id1 : Int),
        (ms.set j { member with
          borrowedBooks := member.borrowedBooks.filter (fun x => x != book.bookID) })[k]?
            = some m →
        id1 ∈ m.borrowedBooks →
          id1 ≠ book.bookID ∧ ∃ m0, ms[k]? = some m0 ∧ id1 ∈ m0.borrowedBooks := by
      intro k m id1 hk hm
      rcases getElem?_set_cases ms j k _ m hk with ⟨rfl, rfl⟩ | ⟨hne, hk0⟩
      · simp only [List.mem_filter, bne_iff_ne, ne_eq] at hm
        exact ⟨hm.2, member, hj, hm.1⟩
      · refine ⟨?_, m, hk0, hm⟩
        intro e
        rw [e] at hm
        exact hother k m hk0 hne hm
    constructor
    · intro m hm id1 hid1
      obtain ⟨k, hk⟩ := List.mem_iff_getElem?.1 hm
      obtain ⟨hne, m0, hk0, hh0⟩ := back k m id1 hk hid1
      obtain ⟨i1, b1, hi1, hb1, hiss1⟩ := ha1 m0 (List.mem_iff_getElem?.2 ⟨k, hk0⟩) id1 hh0
      have hf := findBookIdx_set id1 l.books i book { book with isIssued := false } hb rfl
      have hii : i ≠ i1 := by
        intro e
        subst e
        rw [hb] at hb1
        cases hb1
        obtain ⟨⟨b2, hb2, hid2⟩, -⟩ := (findBookIdx_eq_some_iff id1 l.books i).1 hi1
        rw [hb] at hb2
        cases hb2
        exact hne hid2.symm
      exact ⟨i1, b1, by rw [hf]; exact hi1, by rw [List.getElem?_set_ne hii]; exact hb1, hiss1⟩
    · intro j1 k1 m1 m2 id1 hj1 hk1 h1 h2
      obtain ⟨-, a1, ha1j, hh1⟩ := back j1 m1 id1 hj1 h1
      obtain ⟨-, a2, ha2k, hh2⟩ := back k1 m2 id1 hk1 h2
      exact hs1 j1 k1 a1 a2 id1 ha1j ha2k hh1 hh2

theorem addBook_cases (l : Librarian) (type title author : String) (bookID : Int) :
    l.addBook type title author bookID = l ∨
      ∃ kind, l.addBook type title author bookID =
        { l with books := l.books ++ [Book.ctor kind title author bookID] } := by
  unfold Librarian.addBook BookFactory.createBook
  by_cases h1 : type = "EBook"
  · exact Or.inr ⟨.EBook, by simp [h1]⟩
  · by_cases h2 : type = "PrintedBook"
    · exact Or.inr ⟨.PrintedBook, by simp [h2]⟩
    · exact Or.inl (by simp [h1, h2])

theorem step_preserves_borrowed (l : Librarian) (c : Cmd)
    (h : BorrowedAreIssued l.books l.members ∧ SingleHolder l.members)
    (hg : returnsByHolder l c = true) :
    BorrowedAreIssued (step l c).books (step l c).members ∧ SingleHolder (step l c).members := by
  cases c with
  | addBook type title author bookID =>
    simp only [step]
    rcases addBook_cases l type title author bookID with heq | ⟨kind, heq⟩
    · rw [heq]; exact h
    · rw [heq]; exact ⟨borrowedAreIssued_append_book _ _ _ h.1, h.2⟩
  | displayBooks => exact h
  | borrow memberName bookID => exact borrow_preserves l memberName bookID h.1 h.2
  | returnBook memberName bookID => exact return_preserves l memberName bookID hg h.1 h.2
  | displayMembers => exact h
  | invalid => exact h

theorem initial_borrowed :
    BorrowedAreIssued initial.books initial.members ∧ SingleHolder initial.members := by
  constructor
  · intro m hm
    simp [initial, Librarian.ctor] at hm
  · intro j k m1 m2 bookID hj
    simp [initial, Librarian.ctor] at hj

/-- C2, as amended. In every state the menu loop reaches from the empty library
by commands among which every return command whose book is found and issued
comes from a member who is on the roster with the book id in the borrowed
list (returns of a book that is not issued are free), for every member and
every id in the borrowed list of that member, `findBookByID` finds a book for
the id and that book has its issued flag set. -/
theorem borrowed_are_issued (cmds : List Cmd)
    (h : allowed returnsByHolder initial cmds = true) :
    ∀ m ∈ (run initial cmds).members, ∀ bookID ∈ m.borrowedBooks,
      ∃ i b, (run initial cmds).findBookByID bookID = some i ∧
        (run initial cmds).books[i]? = some b ∧ b.getIssuedStatus = true :=
  (run_induction_allowed returnsByHolder
    (fun s => BorrowedAreIssued s.books s.members ∧ SingleHolder s.members)
    step_preserves_borrowed cmds initial initial_borrowed h).1

theorem borrowed_are_issued_witness :
    allowed returnsByHolder initial
      [.addBook "EBook" "Dune" "Herbert" 1, .returnBook "Zed" 1,
        .addBook "PrintedBook" "1984" "Orwell" 2, .borrow "Ann" 1, .borrow "Bob" 2,
        .returnBook "Ann" 1, .returnBook "Ann" 1, .returnBook "Bob" 1,
        .borrow "Bob" 1] = true ∧
    (run initial
      [.addBook "EBook" "Dune" "Herbert" 1, .returnBook "Zed" 1,
        .addBook "PrintedBook" "1984" "Orwell" 2, .borrow "Ann" 1, .borrow "Bob" 2,
        .returnBook "Ann" 1, .returnBook "Ann" 1, .returnBook "Bob" 1,
        .borrow "Bob" 1]).members =
      [⟨"Zed", 1, []⟩, ⟨"Ann", 2, []⟩, ⟨"Bob", 3, [2, 1]⟩] ∧
    ∀ m ∈ (run initial
      [.addBook "EBook" "Dune" "Herbert" 1, .returnBook "Zed" 1,
        .addBook "PrintedBook" "1984" "Orwell" 2, .borrow "Ann" 1, .borrow "Bob" 2,
        .returnBook "Ann" 1, .returnBook "Ann" 1, .returnBook "Bob" 1,
        .borrow "Bob" 1]).members,
      ∀ bookID ∈ m.borrowedBooks,
        ∃ i b, (run initial
          [.addBook "EBook" "Dune" "Herbert" 1, .returnBook "Zed" 1,
            .addBook "PrintedBook" "1984" "Orwell" 2, .borrow "Ann" 1, .borrow "Bob" 2,
            .returnBook "Ann" 1, .returnBook "Ann" 1, .returnBook "Bob" 1,
            .borrow "Bob" 1]).findBookByID bookID = some i ∧
          (run initial
            [.addBook "EBook" "Dune" "Herbert" 1, .returnBook "Zed" 1,
              .addBook "PrintedBook" "1984" "Orwell" 2, .borrow "Ann" 1, .borrow "Bob" 2,
              .returnBook "Ann" 1, .returnBook "Ann" 1, .returnBook "Bob" 1,
              .borrow "Bob" 1]).books[i]? = some b ∧ b.getIssuedStatus = true :=
  ⟨by decide, by decide, borrowed_are_issued _ (by decide)⟩

/-- C2, counterexample. "Ann" borrows book 1 and "Bob", who does not hold it,
returns it: id 1 is still in the borrowed list of "Ann", and the book that
`findBookByID` returns for 1 has its issued flag cleared. -/
theorem borrowed_not_issued_after_foreign_return :
    (run initial [.addBook "EBook" "Dune" "Herbert" 1, .borrow "Ann" 1,
      .returnBook "Bob" 1]).members = [⟨"Ann", 1, [1]⟩, ⟨"Bob", 2, []⟩] ∧
    (run initial [.addBook "EBook" "Dune" "Herbert" 1, .borrow "Ann" 1,
      .returnBook "Bob" 1]).findBookByID 1 = some 0 ∧
    (run initial [.addBook "EBook" "Dune" "Herbert" 1, .borrow "Ann" 1,
      .returnBook "Bob" 1]).books[0]? = some ⟨.EBook, "Dune", "Herbert", 1, false⟩ ∧
    ¬ (∀ m ∈ (run initial [.addBook "EBook" "Dune" "Herbert" 1, .borrow "Ann" 1,
        .returnBook "Bob" 1]).members, ∀ bookID ∈ m.borrowedBooks,
      ∃ i b, (run initial [.addBook "EBook" "Dune" "Herbert" 1, .borrow "Ann" 1,
          .returnBook "Bob" 1]).findBookByID bookID = some i ∧
        (run initial [.addBook "EBook" "Dune" "Herbert" 1, .borrow "Ann" 1,
          .returnBook "Bob" 1]).books[i]? = some b ∧ b.getIssuedStatus = true) := by
  have hm : (run initial [.addBook "EBook" "Dune" "Herbert" 1, .borrow "Ann" 1,
      .returnBook "Bob" 1]).members = [⟨"Ann", 1, [1]⟩, ⟨"Bob", 2, []⟩] := by decide
  have hf : (run initial [.addBook "EBook" "Dune" "Herbert" 1, .borrow "Ann" 1,
      .returnBook "Bob" 1]).findBookByID 1 = some 0 := by decide
  have hb : (run initial [.addBook "EBook" "Dune" "Herbert" 1, .borrow "Ann" 1,
      .returnBook "Bob" 1]).books[0]? = some ⟨.EBook, "Dune", "Herbert", 1, false⟩ := by
    decide
  refine ⟨hm, hf, hb, ?_⟩
  intro hall
  obtain ⟨i, b, hi, hbi, hiss⟩ := hall ⟨"Ann", 1, [1]⟩ (by rw [hm]; simp) 1 (by simp)
  rw [hf] at hi
  cases hi
  rw [hb] at hbi
  cases hbi
  cases hiss

/-! ## Issued flags and holders -/

theorem findBookIdx_append_new (bs : List Book) (b : Book)
    (h : findBookIdx b.bookID bs = none) :
    findBookIdx b.bookID (bs ++ [b]) = some bs.length := by
  induction bs with
  | nil => simp [findBookIdx, Book.getBookID]
  | cons a rest ih =>
    by_cases hn : a.bookID = b.bookID
    · simp [findBookIdx, Book.getBookID, hn] at h
    · simp only [findBookIdx, Book.getBookID, hn, beq_iff_eq, if_false,
        Option.map_eq_none'] at h
      simp [findBookIdx, Book.getBookID, hn, ih h]

theorem uniqueIds_append (bs : List Book) (b : Book) (hu : UniqueIds bs)
    (h : findBookIdx b.bookID bs = none) : UniqueIds (bs ++ [b]) := by
  intro k a hk
  rw [List.getElem?_append] at hk
  split at hk
  · exact findBookIdx_append_of_some _ _ _ _ (hu k a hk)
  · rename_i hlt
    cases hd : k - bs.length with
    | zero =>
      have hkl : k = bs.length := by omega
      rw [hd] at hk
      simp only [List.getElem?_cons_zero, Option.some.injEq] at hk
      subst hk
      rw [hkl]
      exact findBookIdx_append_new bs _ h
    | succ d => rw [hd] at hk; simp at hk

theorem uniqueIds_set (bs : List Book) (i : Nat) (book book1 : Book) (hu : UniqueIds bs)
    (hb : bs[i]? = some book) (hid : book1.bookID = book.bookID) :
    UniqueIds (bs.set i book1) := by
  intro k a hk
  rw [findBookIdx_set a.bookID bs i book book1 hb hid]
  rcases getElem?_set_cases bs i k book1 a hk with ⟨rfl, rfl⟩ | ⟨-, hk0⟩
  · rw [hid]; exact hu k book hb
  · exact hu k a hk0

theorem exists_holder_set (ms : List Member) (j : Nat) (member x : Member) (bookID : Int)
    (hj : ms[j]? = some member)
    (hkeep : bookID ∈ member.borrowedBooks → bookID ∈ x.borrowedBooks)
    (h : ∃ m ∈ ms, bookID ∈ m.borrowedBooks) :
    ∃ m ∈ ms.set j x, bookID ∈ m.borrowedBooks := by
  obtain ⟨m, hm, hheld⟩ := h
  obtain ⟨k, hk⟩ := List.mem_iff_getElem?.1 hm
  have hlt : j < ms.length := (List.getElem?_eq_some.1 hj).1
  by_cases hjk : j = k
  · subst hjk
    rw [hj] at hk
    cases hk
    exact ⟨x, List.mem_iff_getElem?.2 ⟨j, List.getElem?_set_self hlt⟩, hkeep hheld⟩
  · exact ⟨m, List.mem_iff_getElem?.2 ⟨k, by rw [List.getElem?_set_ne hjk]; exact hk⟩, hheld⟩

theorem transact_roster_held (l : Librarian) (name : String) (j : Nat) (member : Member)
    (ms : List Member) (hh : IssuedAreHeld l.books l.members)
    (hms : (findMemberIdx name l.members = some j ∧ ms = l.members) ∨
      (findMemberIdx name l.members = none ∧ j = l.members.length ∧
        member = Member.ctor name ((l.members.length : Int) + 1) ∧
        ms = l.members ++ [member])) :
    IssuedAreHeld l.books ms := by
  rcases hms with ⟨-, rfl⟩ | ⟨-, -, -, rfl⟩
  · exact hh
  · intro b hb hiss
    obtain ⟨m, hm, hheld⟩ := hh b hb hiss
    exact ⟨m, List.mem_append_left _ hm, hheld⟩

theorem borrow_preserves_held (l : Librarian) (name : String) (bookID : Int)
    (hu : UniqueIds l.books) (hh : IssuedAreHeld l.books l.members) :
    UniqueIds (borrowCmd l name bookID).books ∧
      IssuedAreHeld (borrowCmd l name bookID).books (borrowCmd l name bookID).members := by
  rw [borrowCmd_eq_transact]
  rcases transact_cases Member.borrowBook l name bookID with
    ⟨-, heq⟩ | ⟨i, book, j, member, ms, hi, hb, hid, hj, -, hms, heq⟩
  · rw [heq]; exact ⟨hu, hh⟩
  · have hh1 := transact_roster_held l name j member ms hh hms
    rw [heq]
    cases hiss : book.isIssued with
    | true =>
      rw [borrowBook_of_issued member book hiss]
      simp only [set_eq_of_getElem? _ _ _ hb, set_eq_of_getElem? _ _ _ hj]
      exact ⟨hu, hh1⟩
    | false =>
      rw [borrowBook_of_not_issued member book hiss]
      simp only
      have hlt : j < ms.length := (List.getElem?_eq_some.1 hj).1
      refine ⟨uniqueIds_set l.books i book _ hu hb rfl, ?_⟩
      intro b hbmem hbiss
      rcases List.mem_or_eq_of_mem_set hbmem with hbmem | rfl
      · exact exists_holder_set ms j member _ b.bookID hj
          (fun hin => List.mem_append_left _ hin) (hh1 b hbmem hbiss)
      · exact ⟨_, List.mem_iff_getElem?.2 ⟨j, List.getElem?_set_self hlt⟩, by simp⟩

theorem return_preserves_held (l : Librarian) (name : String) (bookID : Int)
    (hu : UniqueIds l.books) (hh : IssuedAreHeld l.books l.members) :
    UniqueIds (returnCmd l name bookID).books ∧
      IssuedAreHeld (returnCmd l name bookID).books (returnCmd l name bookID).members := by
  rw [returnCmd_eq_transact]
  rcases transact_cases Member.returnBook l name bookID with
    ⟨-, heq⟩ | ⟨i, book, j, member, ms, hi, hb, hid, hj, -, hms, heq⟩
  · rw [heq]; exact ⟨hu, hh⟩
  · have hh1 := transact_roster_held l name j member ms hh hms
    rw [heq, returnBook_eq]
    simp only
    refine ⟨uniqueIds_set l.books i book _ hu hb rfl, ?_⟩
    intro b hbmem hbiss
    obtain ⟨k, hk⟩ := List.mem_iff_getElem?.1 hbmem
    rcases getElem?_set_cases l.books i k _ b hk with ⟨-, rfl⟩ | ⟨hne, hk0⟩
    · simp at hbiss
    · have hidne : b.bookID ≠ book.bookID := by
        intro e
        have h1 := hu k b hk0
        have h2 := hu i book hb
        rw [e, h2] at h1
        exact hne (Option.some.inj h1).symm
      refine exists_holder_set ms j member _ b.bookID hj ?_
        (hh1 b (List.mem_iff_getElem?.2 ⟨k, hk0⟩) hbiss)
      intro hin
      simp only [List.mem_filter, bne_iff_ne, ne_eq]
      exact ⟨hin, hidne⟩

theorem countP_eq_one_of_unique (p : Member → Bool) (ms : List Member)
    (hex : ∃ m ∈ ms, p m = true)
    (huniq : ∀ (j k : Nat) (m1 m2 : Member), ms[j]? = some m1 → ms[k]? = some m2 →
      p m1 = true → p m2 = true → j = k) :
    ms.countP p = 1 := by
  induction ms with
  | nil => simp at hex
  | cons a rest ih =>
    by_cases hpa : p a = true
    · have hzero : rest.countP p = 0 := by
        rw [List.countP_eq_zero]
        intro m hm hpm
        obtain ⟨k, hk⟩ := List.mem_iff_getElem?.1 hm
        have := huniq 0 (k + 1) a m (by simp) (by simpa using hk) hpa hpm
        omega
      rw [List.countP_cons_of_pos p rest hpa, hzero]
    · rw [List.countP_cons_of_neg p rest hpa]
      apply ih
      · obtain ⟨m, hm, hpm⟩ := hex
        rcases List.mem_cons.1 hm with rfl | hm
        · exact absurd hpm hpa
        · exact ⟨m, hm, hpm⟩
      · intro j k m1 m2 hj hk h1 h2
        have := huniq (j + 1) (k + 1) m1 m2 (by simpa using hj) (by simpa using hk) h1 h2
        omega

theorem addBook_created (l : Librarian) (type title author : String) (bookID : Int) :
    l.addBook type title author bookID = l ∨
      ∃ kind, BookFactory.createBook type title author bookID =
          some (Book.ctor kind title author bookID) ∧
        l.addBook type title author bookID =
          { l with books := l.books ++ [Book.ctor kind title author bookID] } := by
  unfold Librarian.addBook BookFactory.createBook
  by_cases h1 : type = "EBook"
  · exact Or.inr ⟨.EBook, by simp [h1], by simp [h1]⟩
  · by_cases h2 : type = "PrintedBook"
    · exact Or.inr ⟨.PrintedBook, by simp [h2], by simp [h2]⟩
    · exact Or.inl (by simp [h1, h2])

theorem step_preserves_held (l : Librarian) (c : Cmd)
    (h : (BorrowedAreIssued l.books l.members ∧ SingleHolder l.members) ∧
      UniqueIds l.books ∧ IssuedAreHeld l.books l.members)
    (hg : disciplined l c = true) :
    (BorrowedAreIssued (step l c).books (step l c).members ∧ SingleHolder (step l c).members) ∧
      UniqueIds (step l c).books ∧ IssuedAreHeld (step l c).books (step l c).members := by
  simp only [disciplined, Bool.and_eq_true] at hg
  refine ⟨step_preserves_borrowed l c h.1 hg.1, ?_⟩
  obtain ⟨-, hu, hh⟩ := h
  cases c with
  | addBook type title author bookID =>
    simp only [step]
    rcases addBook_created l type title author bookID with heq | ⟨kind, hc, heq⟩
    · rw [heq]; exact ⟨hu, hh⟩
    · rw [heq]
      have hfresh : findBookIdx (Book.ctor kind title author bookID).bookID l.books = none := by
        have := hg.2
        simpa [addsFreshId, Librarian.findBookByID, hc] using this
      refine ⟨uniqueIds_append l.books _ hu hfresh, ?_⟩
      intro b hb hiss
      rcases List.mem_append.1 hb with hb | hb
      · exact hh b hb hiss
      · simp only [List.mem_singleton] at hb
        subst hb
        simp [Book.ctor] at hiss
  | displayBooks => exact ⟨hu, hh⟩
  | borrow memberName bookID => exact borrow_preserves_held l memberName bookID hu hh
  | returnBook memberName bookID => exact return_preserves_held l memberName bookID hu hh
  | displayMembers => exact ⟨hu, hh⟩
  | invalid => exact ⟨hu, hh⟩

theorem initial_held :
    (BorrowedAreIssued initial.books initial.members ∧ SingleHolder initial.members) ∧
      UniqueIds initial.books ∧ IssuedAreHeld initial.books initial.members := by
  refine ⟨initial_borrowed, ?_, ?_⟩
  · intro i b hb
    simp [initial, Librarian.ctor] at hb
  · intro b hb
    simp [initial, Librarian.ctor] at hb

/-- C1, as amended. In every state the menu loop reaches from the empty library
by commands among which every add command of a recognized kind brings an id
that no catalog book has yet, and every return command whose book is found
and issued comes from a member who is on the roster with the book id in the
borrowed list (adds of an unrecognized kind and returns of a book that is not
issued are free), for every book of the catalog: the issued flag is true if
and only if the id of the book is in the borrowed list of exactly one
member. -/
theorem issued_iff_single_holder (cmds : List Cmd)
    (h : allowed disciplined initial cmds = true) :
    ∀ b ∈ (run initial cmds).books,
      (b.getIssuedStatus = true ↔ holders (run initial cmds).members b.getBookID = 1) := by
  obtain ⟨⟨ha, hs⟩, hu, hh⟩ := run_induction_allowed disciplined
    (fun s => (BorrowedAreIssued s.books s.members ∧ SingleHolder s.members) ∧
      UniqueIds s.books ∧ IssuedAreHeld s.books s.members)
    step_preserves_held cmds initial initial_held h
  intro b hb
  constructor
  · intro hiss
    obtain ⟨m, hm, hheld⟩ := hh b hb hiss
    refine countP_eq_one_of_unique _ _ ⟨m, hm, by simpa [Book.getBookID] using hheld⟩ ?_
    intro j k m1 m2 hj hk h1 h2
    exact hs j k m1 m2 b.bookID hj hk (by simpa [Book.getBookID] using h1)
      (by simpa [Book.getBookID] using h2)
  · intro hcount
    have hpos : 0 < List.countP (fun m => m.borrowedBooks.contains b.getBookID)
        (run initial cmds).members := by
      have : holders (run initial cmds).members b.getBookID = 1 := hcount
      unfold holders at this
      omega
    obtain ⟨m, hm, hpm⟩ := List.countP_pos_iff.1 hpos
    have hheld : b.bookID ∈ m.borrowedBooks := by simpa [Book.getBookID] using hpm
    obtain ⟨i1, b1, hi1, hb1, hiss1⟩ := ha m hm b.bookID hheld
    obtain ⟨k, hk⟩ := List.mem_iff_getElem?.1 hb
    have hfk := hu k b hk
    rw [hi1] at hfk
    cases hfk
    rw [hk] at hb1
    cases hb1
    exact hiss1

theorem issued_iff_single_holder_witness :
    allowed disciplined initial
      [.addBook "EBook" "Dune" "Herbert" 1, .returnBook "Zed" 1,
        .addBook "Audiobook" "Dune" "Herbert" 1, .addBook "PrintedBook" "1984" "Orwell" 2,
        .borrow "Ann" 1, .borrow "Bob" 2, .returnBook "Ann" 1, .returnBook "Ann" 1,
        .borrow "Bob" 1] = true ∧
    (run initial
      [.addBook "EBook" "Dune" "Herbert" 1, .returnBook "Zed" 1,
        .addBook "Audiobook" "Dune" "Herbert" 1, .addBook "PrintedBook" "1984" "Orwell" 2,
        .borrow "Ann" 1, .borrow "Bob" 2, .returnBook "Ann" 1, .returnBook "Ann" 1,
        .borrow "Bob" 1]).books =
      [⟨.EBook, "Dune", "Herbert", 1, true⟩, ⟨.PrintedBook, "1984", "Orwell", 2, true⟩] ∧
    ∀ b ∈ (run initial
      [.addBook "EBook" "Dune" "Herbert" 1, .returnBook "Zed" 1,
        .addBook "Audiobook" "Dune" "Herbert" 1, .addBook "PrintedBook" "1984" "Orwell" 2,
        .borrow "Ann" 1, .borrow "Bob" 2, .returnBook "Ann" 1, .returnBook "Ann" 1,
        .borrow "Bob" 1]).books,
      (b.getIssuedStatus = true ↔
        holders (run initial
          [.addBook "EBook" "Dune" "Herbert" 1, .returnBook "Zed" 1,
            .addBook "Audiobook" "Dune" "Herbert" 1,
            .addBook "PrintedBook" "1984" "Orwell" 2,
            .borrow "Ann" 1, .borrow "Bob" 2, .returnBook "Ann" 1, .returnBook "Ann" 1,
            .borrow "Bob" 1]).members b.getBookID = 1) :=
  ⟨by decide, by decide, issued_iff_single_holder _ (by decide)⟩

/-- C1, counterexample. Three reachable states in which a catalog book breaks
the equivalence: after "Bob" returned the book that "Ann" holds, the book is
not issued and one member lists its id; after "Cy" then borrowed it, the book
is issued and two members list its id; and with two books of id 1, after
"Ann" borrowed id 1, the second book is not issued and one member lists its
id. -/
theorem issued_iff_single_holder_fails :
    (∃ b ∈ (run initial [.addBook "EBook" "Dune" "Herbert" 1, .borrow "Ann" 1,
        .returnBook "Bob" 1]).books,
      b.getIssuedStatus = false ∧
      holders (run initial [.addBook "EBook" "Dune" "Herbert" 1, .borrow "Ann" 1,
        .returnBook "Bob" 1]).members b.getBookID = 1) ∧
    (∃ b ∈ (run initial [.addBook "EBook" "Dune" "Herbert" 1, .borrow "Ann" 1,
        .returnBook "Bob" 1, .borrow "Cy" 1]).books,
      b.getIssuedStatus = true ∧
      holders (run initial [.addBook "EBook" "Dune" "Herbert" 1, .borrow "Ann" 1,
        .returnBook "Bob" 1, .borrow "Cy" 1]).members b.getBookID = 2) ∧
    (∃ b ∈ (run initial [.addBook "EBook" "Dune" "Herbert" 1,
        .addBook "PrintedBook" "Dune" "Herbert" 1, .borrow "Ann" 1]).books,
      b.getIssuedStatus = false ∧
      holders (run initial [.addBook "EBook" "Dune" "Herbert" 1,
        .addBook "PrintedBook" "Dune" "Herbert" 1, .borrow "Ann" 1]).members b.getBookID = 1) := by
  decide

/-! ## Adding books, missing books, issuing -/

/-- C11. For a recognized kind, `Librarian::addBook` returns the librarian with
exactly one book appended at the end of the catalog: that book has the given
title, author and id, the variant named by the kind, and a cleared issued
flag; the roster and the librarian name are unchanged.  The id is not
compared with the ids in the catalog, so this holds for every id. -/
theorem addBook_recognized (l : Librarian) (type title author : String) (bookID : Int)
    (h : type = "EBook" ∨ type = "PrintedBook") :
    l.addBook type title author bookID =
      { l with books := l.books ++
        [{ kind := if type = "EBook" then BookKind.EBook else BookKind.PrintedBook,
           title := title, author := author, bookID := bookID, isIssued := false }] } := by
  rcases h with rfl | rfl
  · simp [Librarian.addBook, BookFactory.createBook, Book.ctor]
  · have hne : ¬ ("PrintedBook" = "EBook") := by decide
    simp [Librarian.addBook, BookFactory.createBook, Book.ctor, hne]

theorem addBook_recognized_witness :
    (run initial [.addBook "EBook" "Dune" "Herbert" 1]).addBook "PrintedBook" "1984" "Orwell" 1 =
      { name := "Alice",
        books := [⟨.EBook, "Dune", "Herbert", 1, false⟩, ⟨.PrintedBook, "1984", "Orwell", 1, false⟩],
        members := [] } := by
  rw [addBook_recognized _ "PrintedBook" "1984" "Orwell" 1 (Or.inr rfl)]
  decide

/-- C12. When no catalog book has the id, the borrow command (menu choice 3)
and the return command (menu choice 4) return the state they were given,
whatever the member name: no flag, no borrowed list and no roster entry
changes, and no member is created. -/
theorem not_found_no_change (l : Librarian) (memberName : String) (bookID : Int)
    (h : ∀ b ∈ l.books, b.getBookID ≠ bookID) :
    l.findBookByID bookID = none ∧
    step l (.borrow memberName bookID) = l ∧
    step l (.returnBook memberName bookID) = l ∧
    (step l (.borrow memberName bookID)).members.length = l.members.length ∧
    (step l (.returnBook memberName bookID)).members.length = l.members.length := by
  have hn : findBookIdx bookID l.books = none := (findBookIdx_eq_none_iff bookID l.books).2 h
  have hb : step l (.borrow memberName bookID) = l := by
    simp only [step]
    rw [borrowCmd_eq_transact]
    exact transact_of_none _ l memberName bookID hn
  have hr : step l (.returnBook memberName bookID) = l := by
    simp only [step]
    rw [returnCmd_eq_transact]
    exact transact_of_none _ l memberName bookID hn
  exact ⟨hn, hb, hr, by rw [hb], by rw [hr]⟩

theorem not_found_no_change_witness :
    step (run initial [.addBook "EBook" "Dune" "Herbert" 1, .borrow "Ann" 1])
        (.borrow "Bob" 99) =
      run initial [.addBook "EBook" "Dune" "Herbert" 1, .borrow "Ann" 1] ∧
    step (run initial [.addBook "EBook" "Dune" "Herbert" 1, .borrow "Ann" 1])
        (.returnBook "Bob" 99) =
      run initial [.addBook "EBook" "Dune" "Herbert" 1, .borrow "Ann" 1] :=
  ⟨(not_found_no_change (run initial [.addBook "EBook" "Dune" "Herbert" 1, .borrow "Ann" 1])
      "Bob" 99 (by decide)).2.1,
    (not_found_no_change (run initial [.addBook "EBook" "Dune" "Herbert" 1, .borrow "Ann" 1])
      "Bob" 99 (by decide)).2.2.1⟩

theorem issueBook_of_issued (book : Book) (h : book.isIssued = true) :
    book.issueBook = book := by
  cases hk : book.kind <;> simp [Book.issueBook, hk, EBook_issueBook, PrintedBook_issueBook, h]

/-- C13. For a book of either variant, `issueBook` on a cleared issued flag
sets the flag and changes nothing else, and on a set flag returns the book
unchanged; so after `issueBook` the flag is set, a second `issueBook` changes
nothing, and kind, title, author and id are those before the call.  The two
overriding bodies agree with the virtual call on their own variant. -/
theorem issueBook_spec (book : Book) :
    (book.getIssuedStatus = false → book.issueBook = { book with isIssued := true }) ∧
    (book.getIssuedStatus = true → book.issueBook = book) ∧
    book.issueBook.getIssuedStatus = true ∧
    book.issueBook.issueBook = book.issueBook ∧
    book.issueBook.kind = book.kind ∧ book.issueBook.title = book.title ∧
    book.issueBook.author = book.author ∧ book.issueBook.getBookID = book.getBookID ∧
    (book.kind = BookKind.EBook → book.issueBook = EBook_issueBook book) ∧
    (book.kind = BookKind.PrintedBook → book.issueBook = PrintedBook_issueBook book) := by
  have hE : book.kind = BookKind.EBook → book.issueBook = EBook_issueBook book := by
    intro hk; simp [Book.issueBook, hk]
  have hP : book.kind = BookKind.PrintedBook → book.issueBook = PrintedBook_issueBook book := by
    intro hk; simp [Book.issueBook, hk]
  cases h : book.isIssued with
  | false =>
    have h1 := issueBook_of_not_issued book h
    have h2 : ({ book with isIssued := true } : Book).issueBook = { book with isIssued := true } :=
      issueBook_of_issued _ rfl
    refine ⟨fun _ => h1, fun hc => ?_, ?_, ?_, ?_, ?_, ?_, ?_, hE, hP⟩
    · simp [Book.getIssuedStatus, h] at hc
    all_goals rw [h1]
    · rfl
    · exact h2
    all_goals rfl
  | true =>
    have h1 := issueBook_of_issued book h
    refine ⟨fun hc => ?_, fun _ => h1, ?_, ?_, ?_, ?_, ?_, ?_, hE, hP⟩
    · simp [Book.getIssuedStatus, h] at hc
    · rw [h1]; exact h
    · rw [h1]; exact h1
    all_goals rw [h1]

theorem issueBook_spec_witness :
    Book.issueBook ⟨.EBook, "Dune", "Herbert", 1, false⟩ = ⟨.EBook, "Dune", "Herbert", 1, true⟩ ∧
    Book.issueBook ⟨.PrintedBook, "1984", "Orwell", 2, true⟩ =
      ⟨.PrintedBook, "1984", "Orwell", 2, true⟩ :=
  ⟨(issueBook_spec ⟨.EBook, "Dune", "Herbert", 1, false⟩).1 rfl,
    (issueBook_spec ⟨.PrintedBook, "1984", "Orwell", 2, true⟩).2.1 rfl⟩

/-- C18. For a book whose issued flag is false: when the book id is not in the
borrowed list of the member, `Member::borrowBook` followed by
`Member::returnBook` of the same book gives back the member and the book as
they were before the borrow; when the id was already in the list, the book is
given back as it was, and the borrowed list is not: the old occurrences of
the id are gone from it. -/
theorem borrow_then_return (m : Member) (book : Book) (h : book.getIssuedStatus = false) :
    (book.getBookID ∉ m.borrowedBooks →
      (m.borrowBook book).1.returnBook (m.borrowBook book).2 = (m, book)) ∧
    (book.getBookID ∈ m.borrowedBooks →
      ((m.borrowBook book).1.returnBook (m.borrowBook book).2).2 = book ∧
      ((m.borrowBook book).1.returnBook (m.borrowBook book).2).1.borrowedBooks
        ≠ m.borrowedBooks ∧
      book.getBookID ∉
        ((m.borrowBook book).1.returnBook (m.borrowBook book).2).1.borrowedBooks) := by
  have h0 : book.isIssued = false := h
  have hbook : ({ book with isIssued := false } : Book) = book := by
    cases book
    simp only [Book.mk.injEq, true_and] at h0 ⊢
    exact h0.symm
  rw [borrowBook_of_not_issued m book h0, returnBook_eq]
  simp only [Book.getBookID]
  have hfilter : (m.borrowedBooks ++ [book.bookID]).filter (fun x => x != book.bookID) =
      m.borrowedBooks.filter (fun x => x != book.bookID) := by
    simp [List.filter_append]
  rw [hfilter]
  constructor
  · intro hn
    have hself : m.borrowedBooks.filter (fun x => x != book.bookID) = m.borrowedBooks := by
      rw [List.filter_eq_self]
      intro a ha
      have : a ≠ book.bookID := fun e => hn (e ▸ ha)
      simpa using this
    rw [hself]
    exact Prod.ext rfl hbook
  · intro hin
    have hnot : book.bookID ∉ m.borrowedBooks.filter (fun x => x != book.bookID) := by
      simp
    refine ⟨hbook, ?_, hnot⟩
    intro e
    apply hnot
    rw [e]
    exact hin

theorem borrow_then_return_witness :
    (Member.borrowBook ⟨"Ann", 1, [2]⟩ ⟨.EBook, "Dune", "Herbert", 1, false⟩).1.returnBook
        (Member.borrowBook ⟨"Ann", 1, [2]⟩ ⟨.EBook, "Dune", "Herbert", 1, false⟩).2 =
      (⟨"Ann", 1, [2]⟩, ⟨.EBook, "Dune", "Herbert", 1, false⟩) ∧
    ((Member.borrowBook ⟨"Ann", 1, [1, 2]⟩ ⟨.EBook, "Dune", "Herbert", 1, false⟩).1.returnBook
        (Member.borrowBook ⟨"Ann", 1, [1, 2]⟩
          ⟨.EBook, "Dune", "Herbert", 1, false⟩).2).1.borrowedBooks ≠ [1, 2] :=
  ⟨(borrow_then_return ⟨"Ann", 1, [2]⟩ ⟨.EBook, "Dune", "Herbert", 1, false⟩ rfl).1 (by decide),
    ((borrow_then_return ⟨"Ann", 1, [1, 2]⟩ ⟨.EBook, "Dune", "Herbert", 1, false⟩ rfl).2
      (by decide)).2.1⟩

/-! ## Roster names and catalogued ids -/

theorem map_set_eq {α β : Type} (g : α → β) (xs : List α) (j : Nat) (a x : α)
    (hj : xs[j]? = some a) (hg : g x = g a) : (xs.set j x).map g = xs.map g := by
  induction xs generalizing j with
  | nil => simp
  | cons y rest ih =>
    cases j with
    | zero =>
      simp only [List.getElem?_cons_zero, Option.some.injEq] at hj
      subst hj
      simp [hg]
    | succ k =>
      simp only [List.getElem?_cons_succ] at hj
      simp [ih k hj]

theorem transact_names (f : Member → Book → Member × Book)
    (hf : ∀ m b, (f m b).1.name = m.name) (l : Librarian) (name : String) (bookID : Int)
    (h : (l.members.map Member.getName).Nodup) :
    ((transact f l name bookID).members.map Member.getName).Nodup := by
  rcases transact_cases f l name bookID with
    ⟨-, heq⟩ | ⟨i, book, j, member, ms, -, -, -, hj, -, hms, heq⟩
  · rw [heq]; exact h
  · rw [heq]
    simp only
    rw [map_set_eq Member.getName ms j member _ hj (hf member book)]
    rcases hms with ⟨-, rfl⟩ | ⟨hnone, -, hmem, rfl⟩
    · exact h
    · rw [List.map_append, List.nodup_append]
      refine ⟨h, by simp, ?_⟩
      intro a ha hb
      simp only [List.map_cons, List.map_nil, List.mem_singleton] at hb
      obtain ⟨m, hm, rfl⟩ := List.mem_map.1 ha
      rw [hmem] at hb
      exact (findMemberIdx_eq_none_iff name l.members).1 hnone m hm hb

theorem step_names (l : Librarian) (c : Cmd) (h : (l.members.map Member.getName).Nodup) :
    ((step l c).members.map Member.getName).Nodup := by
  cases c with
  | addBook type title author bookID => simp only [step, addBook_members]; exact h
  | displayBooks => exact h
  | borrow memberName bookID =>
    exact transact_names _ (fun m b => (borrowBook_fst m b).1) l memberName bookID h
  | returnBook memberName bookID =>
    exact transact_names _ (fun m b => (returnBook_fst m b).1) l memberName bookID h
  | displayMembers => exact h
  | invalid => exact h

/-- C16. In every state the menu loop reaches from the empty library, the
names of the members of the roster are pairwise distinct: two positions of the
roster with members of the same name are the same position.  The name is
compared as a whole string, the empty string included. -/
theorem member_names_distinct (cmds : List Cmd) :
    ((run initial cmds).members.map Member.getName).Nodup ∧
    ∀ (j k : Nat) (m1 m2 : Member), (run initial cmds).members[j]? = some m1 →
      (run initial cmds).members[k]? = some m2 → m1.getName = m2.getName → j = k := by
  have hnd : ((run initial cmds).members.map Member.getName).Nodup :=
    run_induction (fun s => (s.members.map Member.getName).Nodup) step_names cmds initial
      (by simp [initial, Librarian.ctor])
  refine ⟨hnd, ?_⟩
  intro j k m1 m2 hj hk hname
  have hj1 : ((run initial cmds).members.map Member.getName)[j]? = some m1.getName := by
    simp [hj]
  have hk1 : ((run initial cmds).members.map Member.getName)[k]? = some m1.getName := by
    simp [hk, hname]
  obtain ⟨hjlt, hje⟩ := List.getElem?_eq_some.1 hj1
  obtain ⟨hklt, hke⟩ := List.getElem?_eq_some.1 hk1
  exact (List.Nodup.getElem_inj_iff hnd).1 (hje.trans hke.symm)

theorem member_names_distinct_witness :
    (run initial [.addBook "EBook" "Dune" "Herbert" 1, .borrow "" 1, .returnBook "" 1,
      .borrow "Ann" 1, .returnBook "" 1]).members = [⟨"", 1, []⟩, ⟨"Ann", 2, [1]⟩] ∧
    ((run initial [.addBook "EBook" "Dune" "Herbert" 1, .borrow "" 1, .returnBook "" 1,
      .borrow "Ann" 1, .returnBook "" 1]).members.map Member.getName).Nodup :=
  ⟨by decide, (member_names_distinct [.addBook "EBook" "Dune" "Herbert" 1, .borrow "" 1,
    .returnBook "" 1, .borrow "Ann" 1, .returnBook "" 1]).1⟩

theorem transact_catalogued (f : Member → Book → Member × Book)
    (hfb : ∀ m b, (f m b).2.bookID = b.bookID)
    (hfm : ∀ m b, ∀ x ∈ (f m b).1.borrowedBooks, x ∈ m.borrowedBooks ∨ x = b.bookID)
    (l : Librarian) (name : String) (bookID : Int)
    (h : BorrowedAreCatalogued l.books l.members) :
    BorrowedAreCatalogued (transact f l name bookID).books
      (transact f l name bookID).members := by
  rcases transact_cases f l name bookID with
    ⟨-, heq⟩ | ⟨i, book, j, member, ms, hi, hb, hid, hj, -, hms, heq⟩
  · rw [heq]; exact h
  · rw [heq]
    have hms1 : BorrowedAreCatalogued l.books ms := by
      rcases hms with ⟨-, rfl⟩ | ⟨-, -, hmem, rfl⟩
      · exact h
      · intro m hm x hx
        rcases List.mem_append.1 hm with hm | hm
        · exact h m hm x hx
        · simp only [List.mem_singleton] at hm
          subst hm
          rw [hmem] at hx
          simp [Member.ctor] at hx
    intro m hm x hx
    simp only at hm ⊢
    rw [findBookIdx_set x l.books i book _ hb (hfb member book)]
    rcases List.mem_or_eq_of_mem_set hm with hm | rfl
    · exact hms1 m hm x hx
    · rcases hfm member book x hx with hx | rfl
      · exact hms1 member (List.mem_iff_getElem?.2 ⟨j, hj⟩) x hx
      · exact ⟨i, by rw [hid]; exact hi⟩

theorem step_catalogued (l : Librarian) (c : Cmd)
    (h : BorrowedAreCatalogued l.books l.members) :
    BorrowedAreCatalogued (step l c).books (step l c).members := by
  cases c with
  | addBook type title author bookID =>
    simp only [step]
    rcases addBook_cases l type title author bookID with heq | ⟨kind, heq⟩
    · rw [heq]; exact h
    · rw [heq]
      intro m hm x hx
      obtain ⟨i, hi⟩ := h m hm x hx
      exact ⟨i, findBookIdx_append_of_some x l.books _ i hi⟩
  | displayBooks => exact h
  | borrow memberName bookID =>
    refine transact_catalogued Member.borrowBook ?_ ?_ l memberName bookID h
    · intro m b
      cases hb : b.isIssued with
      | false => rw [borrowBook_of_not_issued m b hb]
      | true => rw [borrowBook_of_issued m b hb]
    · intro m b x hx
      cases hb : b.isIssued with
      | false =>
        rw [borrowBook_of_not_issued m b hb] at hx
        simpa using hx
      | true =>
        rw [borrowBook_of_issued m b hb] at hx
        exact Or.inl hx
  | returnBook memberName bookID =>
    refine transact_catalogued Member.returnBook ?_ ?_ l memberName bookID h
    · intro m b; rw [returnBook_eq]
    · intro m b x hx
      rw [returnBook_eq] at hx
      exact Or.inl (List.mem_filter.1 hx).1
  | displayMembers => exact h
  | invalid => exact h

/-- C17. In every state the menu loop reaches from the empty library, every id
in the borrowed list of a member is the id of a book of the catalog, and
`findBookByID` returns a position, not "not found", for it. -/
theorem borrowed_ids_catalogued (cmds : List Cmd) :
    ∀ m ∈ (run initial cmds).members, ∀ bookID ∈ m.borrowedBooks,
      (∃ b ∈ (run initial cmds).books, b.getBookID = bookID) ∧
      (run initial cmds).findBookByID bookID ≠ none ∧
      ∃ i b, (run initial cmds).findBookByID bookID = some i ∧
        (run initial cmds).books[i]? = some b ∧ b.getBookID = bookID := by
  have hinv : BorrowedAreCatalogued (run initial cmds).books (run initial cmds).members :=
    run_induction (fun s => BorrowedAreCatalogued s.books s.members) step_catalogued cmds
      initial (by intro m hm; simp [initial, Librarian.ctor] at hm)
  intro m hm bookID hid
  obtain ⟨i, hi⟩ := hinv m hm bookID hid
  obtain ⟨⟨b, hb, hbid⟩, -⟩ := (findBookIdx_eq_some_iff bookID _ i).1 hi
  refine ⟨⟨b, List.mem_iff_getElem?.2 ⟨i, hb⟩, hbid⟩, ?_, i, b, hi, hb, hbid⟩
  intro hnone
  have hi2 : (run initial cmds).findBookByID bookID = some i := hi
  rw [hi2] at hnone
  cases hnone

theorem borrowed_ids_catalogued_witness :
    (⟨"Ann", 1, [1]⟩ : Member) ∈ (run initial [.addBook "EBook" "Dune" "Herbert" 1,
      .borrow "Ann" 1, .returnBook "Bob" 1]).members ∧
    (run initial [.addBook "EBook" "Dune" "Herbert" 1, .borrow "Ann" 1,
      .returnBook "Bob" 1]).findBookByID 1 ≠ none :=
  ⟨by decide, (borrowed_ids_catalogued [.addBook "EBook" "Dune" "Herbert" 1, .borrow "Ann" 1,
    .returnBook "Bob" 1] ⟨"Ann", 1, [1]⟩ (by decide) 1 (by decide)).2.1⟩

/-! ## Frame of the commands -/

/-- C14. A return command (menu choice 4) whose book is found at position `i`
changes, of the catalog, only the issued flag of the book at `i`, which it
clears; of the roster, only the borrowed list of the member that
`findOrCreateMember` finds for the name, from which the id is removed; and
when no member has the name, it appends that member with the next id and
an empty borrowed list.  Every book at another position and every member at
another position is unchanged, whatever its borrowed list contains. -/
theorem returnCmd_frame (l : Librarian) (memberName : String) (bookID : Int) (i : Nat)
    (hi : l.findBookByID bookID = some i) :
    (∀ (k : Nat), k ≠ i → (returnCmd l memberName bookID).books[k]? = l.books[k]?) ∧
    (∃ b, l.books[i]? = some b ∧
      (returnCmd l memberName bookID).books[i]? = some { b with isIssued := false }) ∧
    (∀ (k : Nat) (m : Member), l.members[k]? = some m →
      findMemberIdx memberName l.members ≠ some k →
        (returnCmd l memberName bookID).members[k]? = some m) ∧
    (∀ (k : Nat) (m : Member), l.members[k]? = some m →
      findMemberIdx memberName l.members = some k →
        (returnCmd l memberName bookID).members[k]? =
          some { m with borrowedBooks := m.borrowedBooks.filter (fun x => x != bookID) }) ∧
    (findMemberIdx memberName l.members ≠ none →
      (returnCmd l memberName bookID).members.length = l.members.length) ∧
    (findMemberIdx memberName l.members = none →
      (returnCmd l memberName bookID).members =
        l.members ++ [⟨memberName, (l.members.length : Int) + 1, []⟩]) ∧
    (returnCmd l memberName bookID).name = l.name := by
  have hi0 : findBookIdx bookID l.books = some i := hi
  rw [returnCmd_eq_transact]
  rcases transact_cases Member.returnBook l memberName bookID with
    ⟨hnone, -⟩ | ⟨i1, book, j, member, ms, hi1, hb, hid, hj, -, hms, heq⟩
  · rw [hi0] at hnone; cases hnone
  · rw [hi0] at hi1
    cases hi1
    rw [heq, returnBook_eq]
    simp only
    subst hid
    have hlt : i < l.books.length := (List.getElem?_eq_some.1 hb).1
    refine ⟨fun k hk => List.getElem?_set_ne (fun e => hk e.symm),
      ⟨book, hb, List.getElem?_set_self hlt⟩, ?_, ?_, ?_, ?_, trivial⟩
    · intro k m hk hne
      rcases hms with ⟨hf, rfl⟩ | ⟨-, hjl, -, rfl⟩
      · have hkj : j ≠ k := fun e => hne (e ▸ hf)
        rw [List.getElem?_set_ne hkj]
        exact hk
      · have hklt : k < l.members.length := (List.getElem?_eq_some.1 hk).1
        have hkj : j ≠ k := by omega
        rw [List.getElem?_set_ne hkj, List.getElem?_append_left hklt]
        exact hk
    · intro k m hk hf
      rcases hms with ⟨hf1, rfl⟩ | ⟨hf1, -⟩
      · rw [hf] at hf1
        cases hf1
        rw [hj] at hk
        cases hk
        exact List.getElem?_set_self (List.getElem?_eq_some.1 hj).1
      · rw [hf] at hf1; cases hf1
    · intro hne
      rcases hms with ⟨-, rfl⟩ | ⟨hf1, -⟩
      · simp
      · exact absurd hf1 hne
    · intro hnone
      rcases hms with ⟨hf1, -⟩ | ⟨-, hjl, hmem, rfl⟩
      · rw [hnone] at hf1; cases hf1
      · subst hjl
        rw [List.set_append_right _ _ (Nat.le_refl _)]
        simp [hmem, Member.ctor]

theorem returnCmd_frame_witness :
    (run initial [.addBook "EBook" "Dune" "Herbert" 1, .borrow "Ann" 1]).members[0]?
      = some ⟨"Ann", 1, [1]⟩ ∧
    (returnCmd (run initial [.addBook "EBook" "Dune" "Herbert" 1, .borrow "Ann" 1])
      "Bob" 1).members[0]? = some ⟨"Ann", 1, [1]⟩ :=
  ⟨by decide, (returnCmd_frame (run initial [.addBook "EBook" "Dune" "Herbert" 1,
    .borrow "Ann" 1]) "Bob" 1 0 (by decide)).2.2.1 0 ⟨"Ann", 1, [1]⟩ (by decide) (by decide)⟩

theorem borrowBook_fixed (m : Member) (b : Book) :
    (m.borrowBook b).2.fixedPart = b.fixedPart ∧ (m.borrowBook b).1.fixedPart = m.fixedPart := by
  cases hb : b.isIssued with
  | false => rw [borrowBook_of_not_issued m b hb]; exact ⟨rfl, rfl⟩
  | true => rw [borrowBook_of_issued m b hb]; exact ⟨rfl, rfl⟩

theorem returnBook_fixed (m : Member) (b : Book) :
    (m.returnBook b).2.fixedPart = b.fixedPart ∧ (m.returnBook b).1.fixedPart = m.fixedPart := by
  rw [returnBook_eq]; exact ⟨rfl, rfl⟩

theorem transact_fixed (f : Member → Book → Member × Book)
    (hf : ∀ m b, (f m b).2.fixedPart = b.fixedPart ∧ (f m b).1.fixedPart = m.fixedPart)
    (l : Librarian) (name : String) (bookID : Int) :
    (transact f l name bookID).books.map Book.fixedPart = l.books.map Book.fixedPart ∧
    (∃ t, l.members.map Member.fixedPart ++ t =
      (transact f l name bookID).members.map Member.fixedPart) ∧
    ∀ (k : Nat) (b : Book), l.books[k]? = some b → findBookIdx bookID l.books ≠ some k →
      (transact f l name bookID).books[k]? = some b := by
  rcases transact_cases f l name bookID with
    ⟨-, heq⟩ | ⟨i, book, j, member, ms, hi, hb, -, hj, -, hms, heq⟩
  · rw [heq]; exact ⟨rfl, ⟨[], by simp⟩, fun k b hk _ => hk⟩
  · rw [heq]
    simp only
    refine ⟨map_set_eq Book.fixedPart l.books i book _ hb (hf member book).1, ?_, ?_⟩
    · rw [map_set_eq Member.fixedPart ms j member _ hj (hf member book).2]
      rcases hms with ⟨-, rfl⟩ | ⟨-, -, -, rfl⟩
      · exact ⟨[], by simp⟩
      · exact ⟨[member.fixedPart], by simp⟩
    · intro k b hk hne
      have hik : i ≠ k := fun e => hne (e ▸ hi)
      rw [List.getElem?_set_ne hik]
      exact hk

theorem step_fixed (l : Librarian) (c : Cmd) :
    (∃ t, l.books.map Book.fixedPart ++ t = (step l c).books.map Book.fixedPart) ∧
    (∃ t, l.members.map Member.fixedPart ++ t = (step l c).members.map Member.fixedPart) := by
  cases c with
  | addBook type title author bookID =>
    simp only [step]
    rcases addBook_cases l type title author bookID with heq | ⟨kind, heq⟩
    · rw [heq]; exact ⟨⟨[], by simp⟩, ⟨[], by simp⟩⟩
    · rw [heq]; exact ⟨⟨[(Book.ctor kind title author bookID).fixedPart], by simp⟩, ⟨[], by simp⟩⟩
  | displayBooks => exact ⟨⟨[], by simp [step]⟩, ⟨[], by simp [step]⟩⟩
  | borrow memberName bookID =>
    have h := transact_fixed Member.borrowBook borrowBook_fixed l memberName bookID
    exact ⟨⟨[], by simp only [step, borrowCmd_eq_transact]; rw [h.1]; simp⟩, h.2.1⟩
  | returnBook memberName bookID =>
    have h := transact_fixed Member.returnBook returnBook_fixed l memberName bookID
    exact ⟨⟨[], by simp only [step, returnCmd_eq_transact]; rw [h.1]; simp⟩, h.2.1⟩
  | displayMembers => exact ⟨⟨[], by simp [step]⟩, ⟨[], by simp [step]⟩⟩
  | invalid => exact ⟨⟨[], by simp [step]⟩, ⟨[], by simp [step]⟩⟩

theorem run_fixed (cmds : List Cmd) (l : Librarian) :
    (∃ t, l.books.map Book.fixedPart ++ t = (run l cmds).books.map Book.fixedPart) ∧
    (∃ t, l.members.map Member.fixedPart ++ t = (run l cmds).members.map Member.fixedPart) := by
  refine run_induction
    (fun s => (∃ t, l.books.map Book.fixedPart ++ t = s.books.map Book.fixedPart) ∧
      (∃ t, l.members.map Member.fixedPart ++ t = s.members.map Member.fixedPart))
    ?_ cmds l ⟨⟨[], by simp⟩, ⟨[], by simp⟩⟩
  rintro s c ⟨⟨t1, h1⟩, ⟨t2, h2⟩⟩
  obtain ⟨⟨u1, g1⟩, ⟨u2, g2⟩⟩ := step_fixed s c
  exact ⟨⟨t1 ++ u1, by rw [← g1, ← h1, List.append_assoc]⟩,
    ⟨t2 ++ u2, by rw [← g2, ← h2, List.append_assoc]⟩⟩

/-- C15. No menu command removes or reorders a book or a member: after one
command, and so after any sequence of commands, the old catalog is the
beginning of the new catalog as to kind, title, author and id, and the old
roster is the beginning of the new roster as to name and id.  A command
other than borrow and return leaves every old book as it was, issued flag
included; a borrow or return command leaves every old book as it was except
at the position that `findBookByID` returns for its id. -/
theorem step_keeps_entries (l : Librarian) (c : Cmd) (cmds : List Cmd) :
    (l.books.map Book.fixedPart <+: (step l c).books.map Book.fixedPart) ∧
    (l.members.map Member.fixedPart <+: (step l c).members.map Member.fixedPart) ∧
    (l.books.map Book.fixedPart <+: (run l cmds).books.map Book.fixedPart) ∧
    (l.members.map Member.fixedPart <+: (run l cmds).members.map Member.fixedPart) ∧
    ((∀ memberName bookID, c ≠ .borrow memberName bookID ∧ c ≠ .returnBook memberName bookID) →
      ∀ (k : Nat) (b : Book), l.books[k]? = some b → (step l c).books[k]? = some b) ∧
    (∀ memberName bookID, (c = .borrow memberName bookID ∨ c = .returnBook memberName bookID) →
      ∀ (k : Nat) (b : Book), l.books[k]? = some b → l.findBookByID bookID ≠ some k →
        (step l c).books[k]? = some b) := by
  refine ⟨(step_fixed l c).1, (step_fixed l c).2, (run_fixed cmds l).1, (run_fixed cmds l).2,
    ?_, ?_⟩
  · intro hc k b hk
    cases c with
    | addBook type title author bookID =>
      simp only [step]
      rcases addBook_cases l type title author bookID with heq | ⟨kind, heq⟩
      · rw [heq]; exact hk
      · rw [heq]
        simp only
        rw [List.getElem?_append_left (List.getElem?_eq_some.1 hk).1]
        exact hk
    | displayBooks => exact hk
    | borrow memberName bookID => exact absurd rfl (hc memberName bookID).1
    | returnBook memberName bookID => exact absurd rfl (hc memberName bookID).2
    | displayMembers => exact hk
    | invalid => exact hk
  · intro memberName bookID hc k b hk hne
    rcases hc with rfl | rfl
    · exact (transact_fixed Member.borrowBook borrowBook_fixed l memberName bookID).2.2 k b hk hne
    · exact (transact_fixed Member.returnBook returnBook_fixed l memberName bookID).2.2 k b hk hne

theorem step_keeps_entries_witness :
    (run initial [.addBook "EBook" "Dune" "Herbert" 1,
      .addBook "PrintedBook" "1984" "Orwell" 2, .borrow "Ann" 2]).books[0]?
      = some ⟨.EBook, "Dune", "Herbert", 1, false⟩ ∧
    (step (run initial [.addBook "EBook" "Dune" "Herbert" 1,
      .addBook "PrintedBook" "1984" "Orwell" 2, .borrow "Ann" 2])
      (.returnBook "Bob" 2)).books[0]? = some ⟨.EBook, "Dune", "Herbert", 1, false⟩ :=
  ⟨by decide, (step_keeps_entries (run initial [.addBook "EBook" "Dune" "Herbert" 1,
    .addBook "PrintedBook" "1984" "Orwell" 2, .borrow "Ann" 2]) (.returnBook "Bob" 2)
    []).2.2.2.2.2 "Bob" 2 (Or.inr rfl) 0 ⟨.EBook, "Dune", "Herbert", 1, false⟩ (by decide)
    (by decide)⟩

end Library
